import Mathlib

/-!
Verification of the `vibe-coded-pkg-manager` resolution engine.

A shallow embedding, in Lean 4, of the core of the repository
`edwardwarner/vibe-coded-pkg-manager`: constraint parsing
(`OptimizedDependencyResolver.parse_package_spec`), the numeric fragment of the
`packaging` library (`Version`, `Specifier`, `SpecifierSet`) that the code
exercises, the PyPI client lookup/caching layer (`OptimizedPyPIClient`), the
sequential and parallel dependency-expansion algorithms
(`_resolve_package_optimized`, `_resolve_packages_parallel`), conflict
detection/resolution (`ConflictResolver`), and the `resolve_dependencies`
pipeline.

Modelling notes:
* Strings are `List Char` (`Chars`); top-level helpers convert from `String`.
* Version strings are modelled in the numeric fragment of PEP 440: a dotted
  list of numerals, compared componentwise with zero padding (trailing zeros
  are insignificant), exactly as `packaging` compares release segments.
  Strings outside the fragment (pre-release suffixes, wildcards, epochs)
  fail to parse; in the installed `packaging>=23.0`, `parse` raises
  `InvalidVersion` on genuinely malformed strings, which the embedding
  renders as `none` / an `error` result.
* Python exceptions are modelled with `Option` / `Except` / a dedicated
  `RRes` outcome type; the network is a deterministic `Registry` oracle.
* Caching inside the client does not change any returned value for a fixed
  registry, so the resolver functions are modelled registry-parameterised
  and pure; the cache/statistics state machine is modelled separately
  (`ClientState`, `getPackageInfoC`) for the cache-behaviour claims.
-/

deriving instance DecidableEq for Except

namespace PkgMgr

/-- Character lists standing for Python strings. -/
abbrev Chars := List Char

/-- Convert a Lean string literal to the character-list representation. -/
def strL (s : String) : Chars := s.toList

/-- Whitespace characters stripped by Python's `str.strip()`. -/
def wsChar (c : Char) : Bool :=
  c = ' ' || c = '\t' || c = '\n' || c = '\r' || c = '\x0b' || c = '\x0c'

/-- Python `str.strip()`. -/
def trimC (l : Chars) : Chars :=
  ((l.dropWhile wsChar).reverse.dropWhile wsChar).reverse

/-- Python `str.lower()` (ASCII fragment). -/
def lowerC (l : Chars) : Chars := l.map Char.toLower

/-- Does `s` start with `pat`? -/
def startsWithC : Chars → Chars → Bool
  | [], _ => true
  | _ :: _, [] => false
  | p :: ps, c :: cs => p = c && startsWithC ps cs

/-- Python's substring test `pat in s`. -/
def containsSub (pat : Chars) : Chars → Bool
  | [] => startsWithC pat []
  | c :: cs => startsWithC pat (c :: cs) || containsSub pat cs

/-- Python `s.split(pat, 1)`: the text before and after the first occurrence
of `pat` (only used when `pat` occurs in `s`). -/
def splitOnceC (pat : Chars) : Chars → Chars × Chars
  | [] => ([], [])
  | c :: cs =>
    if startsWithC pat (c :: cs) then ([], List.drop pat.length (c :: cs))
    else
      let r := splitOnceC pat cs
      (c :: r.1, r.2)

/-- Python `s.split(sep)` for a single-character separator. -/
def splitOnChar (sep : Char) : Chars → List Chars
  | [] => [[]]
  | c :: cs =>
    if c = sep then [] :: splitOnChar sep cs
    else
      match splitOnChar sep cs with
      | [] => [[c]]
      | p :: ps => (c :: p) :: ps

/-- Numeric value of a decimal digit. -/
def digitVal (c : Char) : Option Nat :=
  if c.isDigit then some (c.toNat - '0'.toNat) else none

/-- Parse a non-empty all-digit numeral. -/
def parseNatC (l : Chars) : Option Nat :=
  match l with
  | [] => none
  | _ => l.foldl (fun acc c => acc.bind fun a => (digitVal c).map fun d => a * 10 + d) (some 0)

/-- Effectful map over `Option` (Python loops that may raise). -/
def mapMO {α β : Type} (f : α → Option β) : List α → Option (List β)
  | [] => some []
  | x :: xs =>
    match f x with
    | none => none
    | some y =>
      match mapMO f xs with
      | none => none
      | some ys => some (y :: ys)

/-- A release segment list: the numeric fragment of `packaging.version.Version`. -/
abbrev Version := List Nat

/-- Model of `packaging.version.parse` on the numeric fragment: a dotted numeral list.
Anything else is malformed and raises `InvalidVersion` (here: `none`). -/
def parseVersion (l : Chars) : Option Version :=
  mapMO parseNatC (splitOnChar '.' (trimC l))

/-- Is every remaining release segment zero? -/
def allZero (l : List Nat) : Bool := l.all (fun x => x = 0)

/-- Release-segment comparison with zero padding, as `packaging` compares
release tuples (trailing zeros are insignificant). -/
def cmpV : Version → Version → Ordering
  | [], b => if allZero b then .eq else .lt
  | a :: as_, [] => if a = 0 then cmpV as_ [] else .gt
  | a :: as_, b :: bs =>
    if a < b then .lt else if b < a then .gt else cmpV as_ bs

/-- The comparison operators of `packaging.specifiers.Specifier` used by the
code (`===` and wildcards are outside the modelled fragment). -/
inductive Op where
  | eq | ne | le | ge | lt | gt | compat
deriving DecidableEq, Repr

/-- One comparison clause: operator, raw version text, parsed version. -/
structure Specifier where
  op : Op
  verChars : Chars
  ver : Version
deriving DecidableEq, Repr

/-- Zero-padded equality of `v` against the release components `p`
(for the `~=` clause series check). -/
def prefixMatch : List Nat → List Nat → Bool
  | [], _ => true
  | p :: ps, [] => p = 0 && prefixMatch ps []
  | p :: ps, x :: xs => p = x && prefixMatch ps xs

/-- Model of `Specifier.contains` on the numeric fragment. -/
def specContains (sp : Specifier) (v : Version) : Bool :=
  match sp.op with
  | .eq => cmpV v sp.ver = .eq
  | .ne => cmpV v sp.ver ≠ .eq
  | .le => cmpV v sp.ver ≠ .gt
  | .ge => cmpV v sp.ver ≠ .lt
  | .lt => cmpV v sp.ver = .lt
  | .gt => cmpV v sp.ver = .gt
  | .compat => cmpV v sp.ver ≠ .lt && prefixMatch sp.ver.dropLast v

/-- Parse one specifier clause (`packaging.specifiers.Specifier`): an operator
followed by a version; `~=` needs at least two release segments. -/
def parseSpecifier (l : Chars) : Option Specifier :=
  let t := trimC l
  let mk : Op → Chars → Option Specifier := fun op rest =>
    match parseVersion (trimC rest) with
    | none => none
    | some v =>
      if op = .compat && v.length < 2 then none
      else some ⟨op, trimC rest, v⟩
  if startsWithC (strL "~=") t then mk .compat (t.drop 2)
  else if startsWithC (strL "==") t then mk .eq (t.drop 2)
  else if startsWithC (strL "!=") t then mk .ne (t.drop 2)
  else if startsWithC (strL "<=") t then mk .le (t.drop 2)
  else if startsWithC (strL ">=") t then mk .ge (t.drop 2)
  else if startsWithC (strL "<") t then mk .lt (t.drop 1)
  else if startsWithC (strL ">") t then mk .gt (t.drop 1)
  else none

/-- A `packaging.specifiers.SpecifierSet`: the conjunction of its clauses.
The Python value is a frozenset; only membership, emptiness and joint
containment are observable in the modelled code, so a list suffices. -/
abbrev SpecifierSet := List Specifier

/-- Model of `SpecifierSet(text)`: split on commas, drop whitespace-only parts, parse
every remaining part (any failure raises `InvalidSpecifier`, here `none`). -/
def parseSpecifierSet (l : Chars) : Option SpecifierSet :=
  mapMO parseSpecifier (((splitOnChar ',' l).map trimC).filter (fun p => !p.isEmpty))

/-- Model of `SpecifierSet.contains` for concrete (non-prerelease) versions: every
clause holds. -/
def ssContains (ss : SpecifierSet) (v : Version) : Bool :=
  ss.all (fun sp => specContains sp v)

/-- Model of `models.PackageSpec`: name, raw version-specification text, parsed set. -/
structure PackageSpec where
  name : Chars
  versionSpec : Chars
  specs : SpecifierSet
deriving DecidableEq, Repr

/-- The operator list probed by `parse_package_spec`'s format fixup. -/
def specOps : List Chars :=
  [strL "==", strL ">=", strL "<=", strL ">", strL "<", strL "~=", strL "!="]

/-- Model of `any(op in version for op in [...])` in `parse_package_spec`. -/
def hasOpIn (v : Chars) : Bool := specOps.any (fun op => containsSub op v)

/-- The operator-probing split of `parse_package_spec` (resolver.py:49-66):
name and remainder at the first operator found, in the source's fixed probe
order (the split consumes the operator); a bare name gets `">=0"`. -/
def pspSplit (s : Chars) : Chars × Chars :=
  if containsSub (strL "==") s then splitOnceC (strL "==") s
  else if containsSub (strL ">=") s then splitOnceC (strL ">=") s
  else if containsSub (strL "<=") s then splitOnceC (strL "<=") s
  else if containsSub (strL ">") s then splitOnceC (strL ">") s
  else if containsSub (strL "<") s then splitOnceC (strL "<") s
  else if containsSub (strL "~=") s then splitOnceC (strL "~=") s
  else if containsSub (strL "!=") s then splitOnceC (strL "!=") s
  else (trimC s, strL ">=0")

/-- The format fixup of `parse_package_spec` (resolver.py:68-71): an
operator-free remainder becomes a minimum-version constraint. -/
def pspFix (v : Chars) : Chars :=
  if v ≠ strL ">=0" && !hasOpIn v then strL ">=" ++ v else v

/-- Model of `OptimizedDependencyResolver.parse_package_spec` (resolver.py:46-73):
split, fix up, then build the `PackageSpec` (whose constructor parses the
`SpecifierSet`, raising — `none` — on invalid text). -/
def parsePackageSpec (s : Chars) : Option PackageSpec :=
  match parseSpecifierSet (trimC (pspFix (pspSplit s).2)) with
  | none => none
  | some ss =>
    some ⟨lowerC (trimC (pspSplit s).1), trimC (pspFix (pspSplit s).2), ss⟩

/-! ## Registry model (the PyPI JSON boundary) -/

/-- One release file entry: declared dependency strings (`requires_dist`)
and the runtime-compatibility constraint (`requires_python`). -/
structure ReleaseInfo where
  requiresDist : List Chars := []
  requiresPython : Option Chars := none
deriving DecidableEq, Repr

/-- One package's JSON document: its `releases` index, in key order. -/
structure PackageData where
  releases : List (Chars × ReleaseInfo)
deriving DecidableEq, Repr

/-- A deterministic registry: package name → JSON document. -/
abbrev Registry := List (Chars × PackageData)

/-- First-match association lookup (Python `dict` access / `in`). -/
def alookup {β : Type} (l : List (Chars × β)) (k : Chars) : Option β :=
  match l with
  | [] => none
  | (k1, v) :: t => if k1 = k then some v else alookup t k

/-- Insert `x` into an ascending list, after any element it does not strictly
precede (the stable placement Python's sort produces). -/
def insByLt {α : Type} (lt : α → α → Bool) (x : α) : List α → List α
  | [] => [x]
  | y :: ys => if lt x y then x :: y :: ys else y :: insByLt lt x ys

/-- Stable sort by a strict comparator (Python `sorted` / `list.sort`). -/
def sortByLt {α : Type} (lt : α → α → Bool) (l : List α) : List α :=
  l.foldl (fun acc x => insByLt lt x acc) []

/-- Model of `OptimizedPyPIClient.get_available_versions` (pypi_client.py:82-99):
fetch the release index, sort the version keys with `sorted(key=parse)` —
which raises `InvalidVersion` on any malformed key — and keep at most the
latest `maxVpp` entries. -/
def getAvailableVersions (reg : Registry) (maxVpp : Nat) (name : Chars) :
    Except Unit (List Chars) :=
  match alookup reg name with
  | none => .ok []
  | some d =>
    let keys := d.releases.map (fun r => r.1)
    match mapMO (fun v => (parseVersion v).map (fun pv => (v, pv))) keys with
    | none => .error ()
    | some kvs =>
      let sorted := (sortByLt (fun a b => cmpV a.2 b.2 = .lt) kvs).map (fun r => r.1)
      .ok (if sorted.length > maxVpp then sorted.drop (sorted.length - maxVpp) else sorted)

/-- Model of `models.PackageInfo` (the fields the resolver reads). -/
structure PackageInfo where
  name : Chars
  version : Chars
  dependencies : List Chars
  requiresPython : Option Chars
deriving DecidableEq, Repr

/-- Model of `OptimizedPyPIClient.get_package_metadata`: per-version metadata from the
release index (first file entry, `{}` when the file list is empty — the
defaulting is folded into `ReleaseInfo`). -/
def getPackageMetadata (reg : Registry) (name ver : Chars) : Option PackageInfo :=
  match alookup reg name with
  | none => none
  | some d =>
    match alookup d.releases ver with
    | none => none
    | some info => some ⟨name, ver, info.requiresDist, info.requiresPython⟩

/-- Model of `PythonVersionManager.parse_version`: strip, drop a `python` title, parse. -/
def pvmParseVersion (l : Chars) : Option Version :=
  let t := trimC l
  let t1 := if startsWithC (strL "python") (lowerC t) then trimC (t.drop 6) else t
  parseVersion t1

/-- Model of `PythonVersionManager.check_compatibility`: an unparsable requirement is
treated as compatible (`except → True`); an unparsable Python version is not. -/
def pvmCheckCompatibility (rp : Chars) (py : Chars) : Bool :=
  if rp.isEmpty then true
  else
    match parseSpecifierSet rp with
    | none => true
    | some ss =>
      match pvmParseVersion py with
      | none => false
      | some v => ssContains ss v

/-- Model of `OptimizedPyPIClient.check_python_compatibility` (value level; the
compatibility cache is transparent for a fixed registry). -/
def checkPythonCompat (reg : Registry) (name ver py : Chars) : Bool :=
  match getPackageMetadata reg name ver with
  | none => true
  | some md =>
    match md.requiresPython with
    | none => true
    | some rp => pvmCheckCompatibility rp py

/-- The scan inside `find_python_compatible_versions`: newest first, skip
versions failing the spec (a parse failure is caught and skipped), collect
compatible ones, stop at `maxV`. -/
def fpcvGo (reg : Registry) (name py : Chars) (spec : Option PackageSpec) (maxV : Nat) :
    List Chars → List Chars → List Chars
  | [], acc => acc
  | v :: rest, acc =>
    let specOk : Bool :=
      match spec with
      | none => true
      | some sp =>
        match parseVersion v with
        | none => false
        | some pv => ssContains sp.specs pv
    if !specOk then fpcvGo reg name py spec maxV rest acc
    else if checkPythonCompat reg name v py then
      let acc1 := acc ++ [v]
      if maxV ≤ acc1.length then acc1 else fpcvGo reg name py spec maxV rest acc1
    else fpcvGo reg name py spec maxV rest acc

/-- Model of `find_python_compatible_versions` (pypi_client.py:167-199): latest-first
scan with early termination, returned oldest-to-newest. -/
def findPythonCompatibleVersions (reg : Registry) (maxVpp : Nat) (name py : Chars)
    (spec : Option PackageSpec) (maxV : Nat) : Except Unit (List Chars) :=
  match getAvailableVersions reg maxVpp name with
  | .error e => .error e
  | .ok avail => .ok ((fpcvGo reg name py spec maxV avail.reverse []).reverse)

/-- The pre-release suffix markers probed by `find_optimal_version`. -/
def stableSuffixes : List Chars :=
  [strL "alpha", strL "beta", strL "rc", strL "dev", strL "pre"]

/-- Model of `find_optimal_version` (pypi_client.py:201-224): latest of at most five
compatible versions, preferring ones without a pre-release suffix marker. -/
def findOptimalVersion (reg : Registry) (maxVpp : Nat) (name py : Chars)
    (spec : Option PackageSpec) (preferStable : Bool) : Except Unit (Option Chars) :=
  match findPythonCompatibleVersions reg maxVpp name py spec 5 with
  | .error e => .error e
  | .ok [] => .ok none
  | .ok compat =>
    if preferStable then
      let stable := compat.filter
        (fun v => !stableSuffixes.any (fun suf => containsSub suf (lowerC v)))
      match stable.getLast? with
      | some v => .ok (some v)
      | none => .ok compat.getLast?
    else .ok compat.getLast?

/-- Model of `get_dependencies`: the declared raw dependency strings of one version. -/
def getDependencies (reg : Registry) (name ver : Chars) : List Chars :=
  match getPackageMetadata reg name ver with
  | none => []
  | some md => md.dependencies

/-! ## Resolver state and the sequential expansion algorithm -/

/-- Model of `models.ResolvedPackage`. -/
structure ResolvedPackage where
  name : Chars
  version : Chars
  dependencies : List Chars
  conflicts : List Chars
  isDirect : Bool
deriving DecidableEq, Repr

/-- The `resolved_packages` dict: insertion-ordered association list. -/
abbrev RState := List (Chars × ResolvedPackage)

/-- Python `dict` assignment: replace in place, else append. -/
def ainsert {β : Type} (l : List (Chars × β)) (k : Chars) (v : β) : List (Chars × β) :=
  match l with
  | [] => [(k, v)]
  | (k1, v1) :: t => if k1 = k then (k, v) :: t else (k1, v1) :: ainsert t k v

/-- Model of `resolved_package.dependencies.append(dep_name)`: the stored package
object is mutated in place, so the map entry for `parent` gains the edge. -/
def appendDep (st : RState) (parent dep : Chars) : RState :=
  match st with
  | [] => []
  | (k, p) :: t =>
    if k = parent then (k, { p with dependencies := p.dependencies ++ [dep] }) :: t
    else (k, p) :: appendDep t parent dep

/-- Outcome of a Python call: fuel exhaustion (impossible for sufficient
fuel, see `resolveP_no_fuelOut`), an uncaught exception, or a value. -/
inductive RRes (α : Type) where
  | fuelOut
  | raised
  | ok (a : α)
deriving DecidableEq, Repr

/-- Character membership test. -/
def elemC (c : Char) (l : Chars) : Bool := l.any (fun x => x = c)

/-- Scanner for `removeDelimited`; the flag records being inside a group
whose closer is known to lie ahead. -/
def rdGo (openC closeC : Char) : Bool → Chars → Chars
  | _, [] => []
  | true, c :: cs =>
    if c = closeC then rdGo openC closeC false cs else rdGo openC closeC true cs
  | false, c :: cs =>
    if c = openC && elemC closeC cs then rdGo openC closeC true cs
    else c :: rdGo openC closeC false cs

/-- Model of `re.sub` of a non-greedy delimited group (`\[.*?\]` / `\(.*?\)`): remove
each opener together with the text up to the next closer; an opener with no
closer ahead matches nothing and stays. -/
def removeDelimited (openC closeC : Char) (l : Chars) : Chars :=
  rdGo openC closeC false l

/-- Model of `_parse_dependency_string` (resolver.py:246-256): strip extras/markers,
`None` for an emptied string, and `parse_package_spec` otherwise — whose
`SpecifierSet` construction can raise (the `error` case). -/
def parseDependencyString (s : Chars) : Except Unit (Option PackageSpec) :=
  let s1 := removeDelimited '[' ']' s
  let s2 := removeDelimited '(' ')' s1
  let s3 := trimC s2
  if s3.isEmpty then .ok none
  else
    match parsePackageSpec s3 with
    | none => .error ()
    | some ps => .ok (some ps)

/-- The dependency loop of `_resolve_package_optimized` (resolver.py:238-242):
for each raw dependency, parse it; skip it when the parse yields `None` or
the name is already resolved (in the latter case nothing at all happens —
no edge is appended); otherwise recurse via `rec` and then append the edge
to the parent package. -/
def stepDeps (rec : PackageSpec → RState → RRes RState) :
    List Chars → Chars → RState → RRes RState
  | [], _, st => .ok st
  | d :: rest, parent, st =>
    match parseDependencyString d with
    | .error _ => .raised
    | .ok none => stepDeps rec rest parent st
    | .ok (some ds) =>
      match alookup st ds.name with
      | some _ => stepDeps rec rest parent st
      | none =>
        match rec ds st with
        | .fuelOut => .fuelOut
        | .raised => .raised
        | .ok st1 => stepDeps rec rest parent (appendDep st1 parent ds.name)

/-- Model of `_resolve_package_optimized` (resolver.py:192-244), fuelled: memo check,
optimal-version selection (with the dead sequential fallback re-issuing the
same query), insertion into the shared map before recursing, then expansion
of at most five dependencies. -/
def resolveP (reg : Registry) (py : Chars) : Nat → PackageSpec → RState → RRes RState
  | 0, _, _ => .fuelOut
  | Nat.succ f, spec, st =>
    match alookup st spec.name with
    | some _ => .ok st
    | none =>
      let proceed : Chars → RRes RState := fun v =>
        let pkg : ResolvedPackage := ⟨spec.name, v, [], [], true⟩
        let st1 := ainsert st spec.name pkg
        let deps := getDependencies reg spec.name v
        stepDeps (resolveP reg py f) (deps.take 5) spec.name st1
      match findOptimalVersion reg 30 spec.name py (some spec) true with
      | .error _ => .raised
      | .ok (some v) => proceed v
      | .ok none =>
        match findPythonCompatibleVersions reg 30 spec.name py (some spec) 5 with
        | .error _ => .raised
        | .ok [] => .ok st
        | .ok compat =>
          match compat.getLast? with
          | some v => proceed v
          | none => .ok st

/-- Sufficient fuel for `resolveP` over `reg` (proved in
`resolveP_no_fuelOut`): one per registry entry plus one. -/
def fuelFor (reg : Registry) : Nat := reg.length + 1

/-- The sequential strategy of `resolve_dependencies` (resolver.py:106-108):
fold `_resolve_package_optimized` over the parsed specifications. -/
def resolveSeqAll (reg : Registry) (py : Chars) :
    List PackageSpec → RState → RRes RState
  | [], st => .ok st
  | s :: rest, st =>
    match resolveP reg py (fuelFor reg) s st with
    | .fuelOut => .fuelOut
    | .raised => .raised
    | .ok st1 => resolveSeqAll reg py rest st1

/-! ## Conflict detection and resolution (conflict_resolver.py) -/

/-- Model of `models.PackageConflict` severity literal. -/
inductive Severity where
  | low | medium | high | critical
deriving DecidableEq, Repr

/-- Model of `models.PackageConflict`. -/
structure PackageConflict where
  packageName : Chars
  conflictingVersions : List Chars
  reason : Chars
  affectedPackages : List Chars
  resolutionSuggestions : List Chars
  severity : Severity
  autoResolvable : Bool
deriving DecidableEq, Repr

/-- Model of `models.ConflictResolutionStrategy` mode literal. -/
inductive StratKind where
  | auto | manual | ignore | failMode
deriving DecidableEq, Repr

/-- The literal text of a strategy mode. -/
def stratStr : StratKind → Chars
  | .auto => strL "auto"
  | .manual => strL "manual"
  | .ignore => strL "ignore"
  | .failMode => strL "fail"

/-- Model of `models.ConflictResolutionStrategy` (defaults as in the source). -/
structure ConflictResolutionStrategy where
  strategy : StratKind := .auto
  preferLatest : Bool := true
  preferStable : Bool := false
  allowDowngrade : Bool := false
  maxAttempts : Nat := 3
deriving DecidableEq, Repr

/-- Model of `models.ConflictResolution`. -/
structure ConflictResolution where
  conflictId : Chars
  packageName : Chars
  chosenVersion : Chars
  reason : Chars
  strategyUsed : Chars
  alternativesConsidered : List Chars
deriving DecidableEq, Repr

/-- The text of one specifier clause (`str(Specifier)`). -/
def opStr : Op → Chars
  | .eq => strL "=="
  | .ne => strL "!="
  | .le => strL "<="
  | .ge => strL ">="
  | .lt => strL "<"
  | .gt => strL ">"
  | .compat => strL "~="

/-- Model of `str(Specifier)`: operator text followed by the version text. -/
def specStr (sp : Specifier) : Chars := opStr sp.op ++ sp.verChars

/-- Code-point lexicographic order on strings (Python `sorted` on `str`). -/
def lexLt : Chars → Chars → Bool
  | [], [] => false
  | [], _ :: _ => true
  | _ :: _, [] => false
  | a :: as_, b :: bs =>
    if a.toNat < b.toNat then true
    else if b.toNat < a.toNat then false
    else lexLt as_ bs

/-- Remove duplicates, keeping first occurrences (frozenset contents). -/
def dedupC : List Chars → List Chars → List Chars
  | _, [] => []
  | seen, x :: xs =>
    if seen.any (fun y => y = x) then dedupC seen xs
    else x :: dedupC (x :: seen) xs

/-- Model of `str(SpecifierSet)`: the sorted, comma-joined distinct clause texts. -/
def specSetStr (ss : SpecifierSet) : Chars :=
  let parts := sortByLt lexLt (dedupC [] (ss.map specStr))
  match parts with
  | [] => []
  | p :: ps => ps.foldl (fun acc q => acc ++ [','] ++ q) p

/-- The `constraints-by-name` map of the resolver. -/
abbrev CMap := List (Chars × List SpecifierSet)

/-- Record one specification's constraint (resolver.py:96-99). -/
def addConstraint (m : CMap) (name : Chars) (ss : SpecifierSet) : CMap :=
  match m with
  | [] => [(name, [ss])]
  | (k, l) :: t =>
    if k = name then (k, l ++ [ss]) :: t else (k, l) :: addConstraint t name ss

/-- Build the constraints map from the parsed specifications. -/
def buildConstraints (specs : List PackageSpec) : CMap :=
  specs.foldl (fun m s => addConstraint m s.name s.specs) []

/-- Model of `ConflictResolver.detect_conflicts` (conflict_resolver.py:165-208): for
every name with more than one constraint, intersect them (`&` concatenates
the clause frozensets); a conflict is emitted only when `not intersection`,
i.e. when the combined CLAUSE SET is empty — not when it is unsatisfiable. -/
def detectConflicts (st : RState) : CMap → List PackageConflict
  | [] => []
  | (name, constraints) :: rest =>
    if 1 < constraints.length then
      let inter : SpecifierSet :=
        match constraints with
        | [] => []
        | c0 :: cs => cs.foldl (fun acc c => acc ++ c) c0
      if inter.isEmpty then
        let affected := (st.filter (fun kv => kv.2.dependencies.any (fun d => d = name))).map
          (fun kv => kv.1)
        let keepSug :=
          match alookup st name with
          | some pkg => [strL "Keep current version: " ++ pkg.version]
          | none => []
        let sugs := keepSug ++ constraints.map (fun c => strL "Use constraint: " ++ specSetStr c)
        let conflict : PackageConflict :=
          { packageName := name
            conflictingVersions := constraints.map specSetStr
            reason := strL "Conflicting version constraints for " ++ name
            affectedPackages := affected
            resolutionSuggestions := sugs
            severity := if 2 < affected.length then .high else .medium
            autoResolvable := true }
        conflict :: detectConflicts st rest
      else detectConflicts st rest
    else detectConflicts st rest

/-- Model of `ConflictResolver._satisfies_constraints`: any parse failure is caught
and yields `False`. -/
def satisfiesConstraints (v : Chars) (constraints : List Chars) : Bool :=
  match parseVersion v with
  | none => false
  | some pv =>
    constraints.all (fun c =>
      match parseSpecifierSet c with
      | none => false
      | some ss => ssContains ss pv)

/-- Exceptions escaping `ConflictResolver.resolve_conflicts`: the
`ValueError` of the `fail` strategy (caught by `resolve_dependencies`), or
any other exception (e.g. `InvalidVersion` from the version sort — not
caught). -/
inductive CErr where
  | valueError
  | other
deriving DecidableEq, Repr

/-- Sort version strings by parsed version (`sort(key=parse)`), stable,
descending when `desc`; a malformed entry raises (`none`). -/
def sortVersions (desc : Bool) (l : List Chars) : Option (List Chars) :=
  match mapMO (fun v => (parseVersion v).map (fun pv => (v, pv))) l with
  | none => none
  | some kvs =>
    let lt : Chars × Version → Chars × Version → Bool :=
      if desc then fun a b => cmpV a.2 b.2 = .gt else fun a b => cmpV a.2 b.2 = .lt
    some ((sortByLt lt kvs).map (fun r => r.1))

/-- The choice walk of `_auto_resolve_conflict` (conflict_resolver.py:87-93):
record every tried version, stop at the first satisfying one. -/
def walkChoose (conflictVers : List Chars) :
    List Chars → List Chars → Option Chars × List Chars
  | [], alts => (none, alts)
  | v :: rest, alts =>
    let alts1 := alts ++ [v]
    if satisfiesConstraints v conflictVers then (some v, alts1)
    else walkChoose conflictVers rest alts1

/-- Model of `ConflictResolver._auto_resolve_conflict` (conflict_resolver.py:51-106).
The `conflict_id` is `uuid.uuid4()` in Python; the placeholder text `uuid`
stands for that nondeterministic fresh identifier (no claim observes it). -/
def autoResolveConflict (reg : Registry) (maxVpp : Nat) (py : Chars)
    (strategy : ConflictResolutionStrategy) (conflict : PackageConflict) :
    Except CErr (Option ConflictResolution) :=
  if !conflict.autoResolvable then .ok none
  else
    match getAvailableVersions reg maxVpp conflict.packageName with
    | .error _ => .error .other
    | .ok [] => .ok none
    | .ok avail =>
      let compatible := avail.filter
        (fun v => checkPythonCompat reg conflict.packageName v py)
      if compatible.isEmpty then .ok none
      else
        match sortVersions strategy.preferLatest compatible with
        | none => .error .other
        | some sorted =>
          let walk := walkChoose conflict.conflictingVersions sorted []
          let chosen :=
            match walk.1 with
            | some v => some v
            | none => sorted.head?
          match chosen with
          | none => .ok none
          | some v =>
            .ok (some
              { conflictId := strL "uuid"
                packageName := conflict.packageName
                chosenVersion := v
                reason := strL "Auto-resolved using " ++ stratStr strategy.strategy ++
                  strL " strategy"
                strategyUsed := stratStr strategy.strategy
                alternativesConsidered := walk.2 })

/-- Model of `ConflictResolver.resolve_conflicts` (conflict_resolver.py:26-49):
`ignore`/`manual` skip, `fail` raises `ValueError` at the first conflict,
`auto` collects the successful automatic resolutions. -/
def resolveConflicts (reg : Registry) (maxVpp : Nat) (py : Chars)
    (strategy : ConflictResolutionStrategy) :
    List PackageConflict → List ConflictResolution →
    Except CErr (List ConflictResolution)
  | [], acc => .ok acc
  | c :: rest, acc =>
    match strategy.strategy with
    | .ignore => resolveConflicts reg maxVpp py strategy rest acc
    | .failMode => .error .valueError
    | .manual => resolveConflicts reg maxVpp py strategy rest acc
    | .auto =>
      match autoResolveConflict reg maxVpp py strategy c with
      | .error e => .error e
      | .ok none => resolveConflicts reg maxVpp py strategy rest acc
      | .ok (some r) => resolveConflicts reg maxVpp py strategy rest (acc ++ [r])

/-- Model of `ConflictResolver.apply_resolution`: overwrite the chosen version and
clear the conflict markers of the affected resolved package. -/
def applyResolutions (rs : List ConflictResolution) (st : RState) : RState :=
  rs.foldl
    (fun s r =>
      s.map (fun kv =>
        if kv.1 = r.packageName then
          (kv.1, { kv.2 with version := r.chosenVersion, conflicts := [] })
        else kv))
    st

/-- Model of `_build_dependency_tree` (resolver.py:258-263). -/
def buildDependencyTree (st : RState) : List (Chars × List Chars) :=
  st.map (fun kv => (kv.2.name, kv.2.dependencies))

/-- Model of `models.ResolutionResult` (the fields `resolve_dependencies` builds). -/
structure ResolutionResult where
  packages : List ResolvedPackage
  conflicts : List Chars
  packageConflicts : List PackageConflict
  resolutions : List ConflictResolution
  warnings : List Chars
  success : Bool
  dependencyTree : List (Chars × List Chars)
  strategy : ConflictResolutionStrategy
deriving DecidableEq, Repr

/-- The tail of `resolve_dependencies` (resolver.py:115-152): run conflict
resolution unless there are no conflicts or the strategy is `ignore`; a
`ValueError` (the `fail` strategy) is caught, leaving `resolutions` empty;
any other exception propagates; then apply the resolutions, build the tree
and assemble the result, with
`success = (no conflicts) or (some resolution was recorded)`. -/
def finishResolution (reg : Registry) (maxVpp : Nat) (py : Chars)
    (conflicts : List PackageConflict) (strategy : ConflictResolutionStrategy)
    (st : RState) : RRes ResolutionResult :=
  let build : RState → List ConflictResolution → RRes ResolutionResult :=
    fun st1 rs =>
      .ok
        { packages := st1.map (fun kv => kv.2)
          conflicts := conflicts.map (fun c => c.reason)
          packageConflicts := conflicts
          resolutions := rs
          warnings := []
          success := conflicts.isEmpty || !rs.isEmpty
          dependencyTree := buildDependencyTree st1
          strategy := strategy }
  if !conflicts.isEmpty && strategy.strategy ≠ .ignore then
    match resolveConflicts reg maxVpp py strategy conflicts [] with
    | .error .valueError => build st []
    | .error .other => .raised
    | .ok rs => build (applyResolutions rs st) rs
  else build st []

/-! ## The parallel strategy (resolver.py:154-190, parallel client) -/

/-- Model of `OptimizedParallelPyPIClient.resolve_packages_parallel` /
`_resolve_single_package`: per direct specification, `find_optimal_version`
with the direct constraint; worker exceptions are caught and the entry
skipped; results keyed by name. The fold is in submission order (the
`as_completed` order is only observable for duplicate spec names). -/
def batchStep (reg : Registry) (maxVpp : Nat) (py : Chars)
    (m : List (Chars × Chars)) (spec : PackageSpec) : List (Chars × Chars) :=
  match findOptimalVersion reg maxVpp spec.name py (some spec) true with
  | .error _ => m
  | .ok none => m
  | .ok (some v) => ainsert m spec.name v

def resolveParallelBatch (reg : Registry) (maxVpp : Nat) (py : Chars)
    (specs : List PackageSpec) : List (Chars × Chars) :=
  specs.foldl (batchStep reg maxVpp py) []

/-- The per-spec loop of `_resolve_packages_parallel` (resolver.py:160-190):
every direct spec whose name got a batch version is (re-)created — note the
missing memo check, an overwrite — and its first five dependencies expanded
exactly as in the sequential path. -/
def parLoop (reg : Registry) (py : Chars) (resolvedVersions : List (Chars × Chars)) :
    List PackageSpec → RState → RRes RState
  | [], st => .ok st
  | spec :: rest, st =>
    match alookup resolvedVersions spec.name with
    | none => parLoop reg py resolvedVersions rest st
    | some v =>
      let pkg : ResolvedPackage := ⟨spec.name, v, [], [], true⟩
      let st1 := ainsert st spec.name pkg
      let deps := getDependencies reg spec.name v
      match stepDeps (resolveP reg py (fuelFor reg)) (deps.take 5) spec.name st1 with
      | .fuelOut => .fuelOut
      | .raised => .raised
      | .ok st2 => parLoop reg py resolvedVersions rest st2

/-- Model of `_resolve_packages_parallel` (resolver.py:154-190). -/
def resolveParAll (reg : Registry) (maxVpp : Nat) (py : Chars)
    (specs : List PackageSpec) : RRes RState :=
  parLoop reg py (resolveParallelBatch reg maxVpp py specs) specs []

/-- Model of `OptimizedDependencyResolver.resolve_dependencies` (resolver.py:75-152),
for an `Environment` with python version `py`. Both clients are constructed
with `max_versions_per_package=30`. A `None` strategy defaults to
`ConflictResolutionStrategy()`. -/
def resolveDependencies (reg : Registry) (useParallel : Bool)
    (specStrings : List Chars) (py : Chars)
    (strategyOpt : Option ConflictResolutionStrategy) : RRes ResolutionResult :=
  let strategy := strategyOpt.getD {}
  match mapMO parsePackageSpec specStrings with
  | none => .raised
  | some specs =>
    let cmap := buildConstraints specs
    let expansion :=
      if useParallel && 3 < specs.length then resolveParAll reg 30 py specs
      else resolveSeqAll reg py specs []
    match expansion with
    | .fuelOut => .fuelOut
    | .raised => .raised
    | .ok st => finishResolution reg 30 py (detectConflicts st cmap) strategy st

/-! ## The client cache state machine (pypi_client.py:42-80) -/

/-- The statistics dict of `OptimizedPyPIClient`. -/
structure ClientStats where
  apiCalls : Nat
  cacheHits : Nat
  cacheMisses : Nat
  versionsChecked : Nat
  versionsPruned : Nat
deriving DecidableEq, Repr

/-- The mutable caches and statistics of `OptimizedPyPIClient`. -/
structure ClientState where
  infoCache : List (Chars × PackageData)
  timestamps : List (Chars × Nat)
  stats : ClientStats
deriving DecidableEq, Repr

/-- Model of `OptimizedPyPIClient._is_cache_valid` (pypi_client.py:42-46): a stored
timestamp newer than `ttl` seconds ago. -/
def isCacheValid (ttl now : Nat) (st : ClientState) (key : Chars) : Bool :=
  match alookup st.timestamps key with
  | none => false
  | some ts => now - ts < ttl

/-- Model of `OptimizedPyPIClient.get_package_info` (pypi_client.py:54-80): serve
from cache when valid (hit count up), otherwise count a miss and an API
call and fetch; a successful fetch is cached with the current time, a
failed one leaves the cache untouched and yields `None`. -/
def getPackageInfoC (reg : Registry) (ttl now : Nat) (name : Chars)
    (st : ClientState) : Option PackageData × ClientState :=
  if isCacheValid ttl now st name then
    (alookup st.infoCache name,
      { st with stats := { st.stats with cacheHits := st.stats.cacheHits + 1 } })
  else
    let stats1 :=
      { st.stats with
        cacheMisses := st.stats.cacheMisses + 1
        apiCalls := st.stats.apiCalls + 1 }
    let st1 := { st with stats := stats1 }
    match alookup reg name with
    | some d =>
      (some d,
        { st1 with
          infoCache := ainsert st1.infoCache name d
          timestamps := ainsert st1.timestamps name now })
    | none => (none, st1)

/-! ## Measures, invariants and closed-form helpers used by the theorems -/

/-- Registry names not yet in the resolved map: the termination measure. -/
def unresolvedCount (reg : Registry) (st : RState) : Nat :=
  ((reg.map Prod.fst).filter (fun n => !(alookup st n).isSome)).length

/-- The resolved-name set only grows along a step. -/
def ResolvedMono (st st' : RState) : Prop :=
  ∀ n, (alookup st n).isSome = true → (alookup st' n).isSome = true

/-- The shared-map invariant: distinct keys, and each stored package is
named after its key. -/
def GoodState (st : RState) : Prop :=
  (st.map Prod.fst).Nodup ∧ ∀ kv ∈ st, kv.2.name = kv.1

/-- What one expansion step preserves: resolved names only grow, and the
shared-map invariant is maintained. -/
def StepOK (st st' : RState) : Prop :=
  ResolvedMono st st' ∧ (GoodState st → GoodState st')

/-- No version of any package declares dependencies. -/
def DepFree (reg : Registry) : Prop :=
  ∀ p ∈ reg, ∀ rel ∈ p.2.releases, rel.2.requiresDist = []

/-- Every release-index key is a well-formed version string. -/
def WFVersions (reg : Registry) : Prop :=
  ∀ p ∈ reg, ∀ rel ∈ p.2.releases, (parseVersion rel.1).isSome = true

/-- The version `find_optimal_version` selects, as an `Option` (errors and
`None` collapse to `none`) — the per-package choice both strategies share. -/
def optV (reg : Registry) (mv : Nat) (py : Chars) (spec : PackageSpec) : Option Chars :=
  match findOptimalVersion reg mv spec.name py (some spec) true with
  | .ok (some v) => some v
  | _ => none

/-- One step of the sequential strategy on a dependency-free registry:
memoized names are skipped, otherwise the optimal version is inserted. -/
def seqStep (reg : Registry) (py : Chars) (st : RState) (spec : PackageSpec) : RState :=
  if (alookup st spec.name).isSome then st
  else
    match optV reg 30 py spec with
    | some v => ainsert st spec.name ⟨spec.name, v, [], [], true⟩
    | none => st

/-- One step of the parallel per-spec loop on a dependency-free registry:
the batch-resolved version is (re-)inserted unconditionally. -/
def parStep (reg : Registry) (py : Chars) (st : RState) (spec : PackageSpec) : RState :=
  match optV reg 30 py spec with
  | some v => ainsert st spec.name ⟨spec.name, v, [], [], true⟩
  | none => st

/-- The conflict list of a completed run (`none` for aborted runs). -/
def packageConflictsOf : RRes ResolutionResult → Option (List PackageConflict)
  | .ok r => some r.packageConflicts
  | _ => none

/-- The version a completed run chose for package `n`. -/
def pkgVersionOf (r : RRes ResolutionResult) (n : Chars) : Option Chars :=
  match r with
  | .ok res => (res.packages.find? (fun p => p.name = n)).map (fun p => p.version)
  | _ => none

/-! ## Concrete test fixtures for the claims -/

/-- A registry in which `pkgx` exists with versions 1.0.0 and 2.0.0. -/
def regX : Registry :=
  [(strL "pkgx", ⟨[(strL "1.0.0", ⟨[], none⟩), (strL "2.0.0", ⟨[], none⟩)]⟩)]

/-- The cyclic registry: `a` depends on `b` and `b` depends on `a`. -/
def regAB : Registry :=
  [(strL "a", ⟨[(strL "1.0.0", ⟨[strL "b"], none⟩)]⟩),
   (strL "b", ⟨[(strL "1.0.0", ⟨[strL "a"], none⟩)]⟩)]

/-- The parsed specification `a` (bare name). -/
def specAB : PackageSpec := ⟨strL "a", strL ">=0", [⟨.ge, strL "0", [0]⟩]⟩

/-- The final resolved map of the cyclic run: one entry each for `a`, `b`;
note `b`'s dependency list is empty (the edge back to `a` was dropped). -/
def stAB : RState :=
  [(strL "a", ⟨strL "a", strL "1.0.0", [strL "b"], [], true⟩),
   (strL "b", ⟨strL "b", strL "1.0.0", [], [], true⟩)]

/-- A registry whose release index carries a malformed version key. -/
def regMal : Registry :=
  [(strL "pkgy", ⟨[(strL "1.0.0", ⟨[], none⟩), (strL "not-a-version", ⟨[], none⟩)]⟩)]

/-- Model of `a` depends on `b` with an effective `<=1.0.0` constraint (the dependency
text `b<=<=1.0.0` survives the operator-consuming split with `<=1.0.0`
intact); `b` also appears as an unconstrained direct specification. -/
def reg10 : Registry :=
  [(strL "a", ⟨[(strL "1.0.0", ⟨[strL "b<=<=1.0.0"], none⟩)]⟩),
   (strL "b", ⟨[(strL "1.0.0", ⟨[], none⟩), (strL "2.0.0", ⟨[], none⟩)]⟩)]

/-- Four direct specifications (the parallel path needs more than three). -/
def specs10 : List Chars := [strL "a", strL "b", strL "c", strL "d"]

/-- A detected conflict for `pkgx`, as `detect_conflicts` would shape it. -/
def conflict0 : PackageConflict :=
  { packageName := strL "pkgx"
    conflictingVersions := [strL "==1.0.0", strL "==2.0.0"]
    reason := strL "Conflicting version constraints for pkgx"
    affectedPackages := []
    resolutionSuggestions := []
    severity := .medium
    autoResolvable := true }

/-- The result of the cyclic-registry run, used to witness C3. -/
def c3res : ResolutionResult :=
  { packages := [⟨strL "a", strL "1.0.0", [strL "b"], [], true⟩,
                 ⟨strL "b", strL "1.0.0", [], [], true⟩]
    conflicts := []
    packageConflicts := []
    resolutions := []
    warnings := []
    success := true
    dependencyTree := [(strL "a", [strL "b"]), (strL "b", [])]
    strategy := {} }

/-- A dependency-free, well-formed one-package registry. -/
def regDF : Registry := [(strL "p", ⟨[(strL "1.0.0", ⟨[], none⟩)]⟩)]

/-- The parsed specification `p` (bare name). -/
def specDF : PackageSpec := ⟨strL "p", strL ">=0", [⟨.ge, strL "0", [0]⟩]⟩

/-- The registry document of `p`, as cached by the client. -/
def c9data : PackageData := ⟨[(strL "1.0.0", ⟨[], none⟩)]⟩

/-- A client state holding `p` in cache with timestamp 5. -/
def c9st : ClientState :=
  { infoCache := [(strL "p", c9data)]
    timestamps := [(strL "p", 5)]
    stats := ⟨2, 3, 4, 0, 0⟩ }

/-! ## Helper lemmas: strings and parsing -/

theorem mem_dropWhile_of_mem {p : Char → Bool} {a : Char} :
    ∀ {l : Chars}, p a = false → a ∈ l → a ∈ l.dropWhile p := by
  intro l
  induction l with
  | nil => intro _ h; cases h
  | cons x xs ih =>
    intro hpa hmem
    by_cases hx : p x = true
    · rw [List.dropWhile_cons_of_pos hx]
      rcases List.mem_cons.mp hmem with rfl | hmem
      · rw [hx] at hpa; cases hpa
      · exact ih hpa hmem
    · rw [List.dropWhile_cons_of_neg hx]
      exact hmem

theorem mem_trimC {a : Char} {l : Chars} (hpa : wsChar a = false) (hmem : a ∈ l) :
    a ∈ trimC l := by
  unfold trimC
  rw [List.mem_reverse]
  apply mem_dropWhile_of_mem hpa
  rw [List.mem_reverse]
  exact mem_dropWhile_of_mem hpa hmem

theorem startsWithC_ex :
    ∀ pat s : Chars, startsWithC pat s = true → ∃ t, s = pat ++ t := by
  intro pat
  induction pat with
  | nil => intro s _; exact ⟨s, rfl⟩
  | cons p ps ih =>
    intro s h
    cases s with
    | nil => simp [startsWithC] at h
    | cons c cs =>
      simp only [startsWithC, Bool.and_eq_true, decide_eq_true_eq] at h
      obtain ⟨rfl, h2⟩ := h
      obtain ⟨t, rfl⟩ := ih cs h2
      exact ⟨t, rfl⟩

theorem mem_of_containsSub {a : Char} {pat : Chars} :
    ∀ l : Chars, containsSub pat l = true → a ∈ pat → a ∈ l := by
  intro l
  induction l with
  | nil =>
    intro h hmem
    simp only [containsSub] at h
    obtain ⟨t, ht⟩ := startsWithC_ex pat [] h
    rcases List.append_eq_nil.mp ht.symm with ⟨rfl, -⟩
    cases hmem
  | cons c cs ih =>
    intro h hmem
    simp only [containsSub, Bool.or_eq_true] at h
    rcases h with h | h
    · obtain ⟨t, ht⟩ := startsWithC_ex pat (c :: cs) h
      rw [ht]
      exact List.mem_append.mpr (Or.inl hmem)
    · exact List.mem_cons_of_mem c (ih h hmem)

theorem splitOnChar_ne_nil (sep : Char) : ∀ l : Chars, splitOnChar sep l ≠ [] := by
  intro l
  induction l with
  | nil => simp [splitOnChar]
  | cons c cs ih =>
    simp only [splitOnChar]
    by_cases hc : c = sep
    · simp [hc]
    · simp only [hc, if_false]
      cases h : splitOnChar sep cs with
      | nil => simp
      | cons p ps => simp

theorem splitOnChar_all_imp {sep : Char} {P : Char → Prop} :
    ∀ l : Chars, (∀ part ∈ splitOnChar sep l, ∀ c ∈ part, P c) →
      ∀ c ∈ l, c = sep ∨ P c := by
  intro l
  induction l with
  | nil => intro _ c hc; cases hc
  | cons x xs ih =>
    intro h c hc
    by_cases hx : x = sep
    · simp only [splitOnChar, hx, if_true] at h
      rcases List.mem_cons.mp hc with rfl | hc
      · exact Or.inl hx
      · exact ih (fun part hp => h part (List.mem_cons_of_mem _ hp)) c hc
    · simp only [splitOnChar, hx, if_false] at h
      cases hsp : splitOnChar sep xs with
      | nil => exact absurd hsp (splitOnChar_ne_nil sep xs)
      | cons p ps =>
        rw [hsp] at h
        rcases List.mem_cons.mp hc with rfl | hc
        · exact Or.inr (h (c :: p) (List.mem_cons_self _ _) c (List.mem_cons_self _ _))
        · apply ih _ c hc
          rw [hsp]
          intro part hpart d hd
          rcases List.mem_cons.mp hpart with rfl | hpart
          · exact h (x :: part) (List.mem_cons_self _ _) d (List.mem_cons_of_mem _ hd)
          · exact h part (List.mem_cons_of_mem _ hpart) d hd

theorem trimC_nil_ws {part : Chars} (h : trimC part = []) :
    ∀ c ∈ part, wsChar c = true := by
  unfold trimC at h
  rw [List.reverse_eq_nil_iff] at h
  rw [List.dropWhile_eq_nil_iff] at h
  intro c hc
  by_cases hcw : wsChar c = true
  · exact hcw
  · exfalso
    have hc2 : c ∈ (part.dropWhile wsChar).reverse := by
      rw [List.mem_reverse]
      exact mem_dropWhile_of_mem (Bool.not_eq_true _ ▸ hcw) hc
    exact hcw (h c hc2)

theorem mapMO_length {α β : Type} (f : α → Option β) :
    ∀ l : List α, ∀ r : List β, mapMO f l = some r → r.length = l.length := by
  intro l
  induction l with
  | nil => intro r h; simp [mapMO] at h; simp [← h]
  | cons x xs ih =>
    intro r h
    simp only [mapMO] at h
    cases hx : f x with
    | none => rw [hx] at h; cases h
    | some y =>
      rw [hx] at h
      cases hxs : mapMO f xs with
      | none => rw [hxs] at h; cases h
      | some ys =>
        rw [hxs] at h
        cases h
        simp [ih ys hxs]

/-- A successfully parsed, empty specifier set only arises from text made of
commas and whitespace. -/
theorem parseSpecifierSet_nil_chars {l : Chars}
    (h : parseSpecifierSet l = some []) :
    ∀ c ∈ l, c = ',' ∨ wsChar c = true := by
  unfold parseSpecifierSet at h
  have hlen := mapMO_length parseSpecifier _ _ h
  simp only [List.length_nil] at hlen
  have hfil : (((splitOnChar ',' l).map trimC).filter (fun p => !p.isEmpty)) = [] :=
    List.length_eq_zero.mp hlen.symm
  have hall : ∀ part ∈ splitOnChar ',' l, trimC part = [] := by
    intro part hpart
    by_contra hne
    have hmem2 : trimC part ∈ ((splitOnChar ',' l).map trimC).filter (fun p => !p.isEmpty) := by
      rw [List.mem_filter]
      constructor
      · exact List.mem_map_of_mem trimC hpart
      · simp [List.isEmpty_iff, hne]
    rw [hfil] at hmem2
    cases hmem2
  apply splitOnChar_all_imp l
  intro part hpart c hc
  exact trimC_nil_ws (hall part hpart) c hc

/-- A character that is neither a comma nor whitespace survives into the
parsed text, so a specifier set parsed from text containing one is
non-empty. -/
theorem parseSpecifierSet_ne_nil_of_mem {l : Chars} {a : Char} {ss : SpecifierSet}
    (ha : a ∈ l) (hnc : a ≠ ',') (hnw : wsChar a = false)
    (h : parseSpecifierSet l = some ss) : ss ≠ [] := by
  intro hnil
  subst hnil
  rcases parseSpecifierSet_nil_chars h a ha with hc | hw
  · exact hnc hc
  · rw [hw] at hnw; cases hnw

/-- Every probe operator of `parse_package_spec` contains a character that
is neither a comma nor whitespace. -/
theorem specOps_have_solid_char :
    specOps.all (fun op => op.any (fun c => !(c = ',') && !wsChar c)) = true := by decide

/-- Whatever `parse_package_spec` feeds to the `SpecifierSet` constructor,
a successful parse yields at least one clause: the bare-name default
`">=0"`, the prefixed `">=" ++ v`, and a remainder kept because it shows an
operator all contain a non-comma, non-whitespace character. -/
theorem pspFix_parse_ne_nil {v : Chars} {ss : SpecifierSet}
    (h : parseSpecifierSet (trimC (pspFix v)) = some ss) : ss ≠ [] := by
  unfold pspFix at h
  by_cases hcond : (v ≠ strL ">=0" && !hasOpIn v) = true
  · rw [if_pos hcond] at h
    have hgt : '>' ∈ trimC (strL ">=" ++ v) := by
      apply mem_trimC (by decide)
      exact List.mem_append.mpr (Or.inl (by decide))
    exact parseSpecifierSet_ne_nil_of_mem hgt (by decide) (by decide) h
  · rw [if_neg hcond] at h
    simp only [Bool.and_eq_true, Bool.not_eq_true, not_and, decide_eq_true_eq] at hcond
    by_cases hv0 : v = strL ">=0"
    · rw [hv0] at h
      have hcomp : parseSpecifierSet (trimC (strL ">=0")) =
          some [⟨Op.ge, strL "0", [0]⟩] := by decide
      rw [hcomp] at h
      cases h
      simp
    · have hop : hasOpIn v = true := by
        have hx := hcond hv0
        simpa using hx
      simp only [hasOpIn, List.any_eq_true] at hop
      obtain ⟨op, hopmem, hsub⟩ := hop
      have hsolid := List.all_eq_true.mp specOps_have_solid_char op hopmem
      rw [List.any_eq_true] at hsolid
      obtain ⟨c, hcop, hc⟩ := hsolid
      simp only [Bool.and_eq_true, Bool.not_eq_true'] at hc
      obtain ⟨hcne, hcws⟩ := hc
      have hcv : c ∈ v := mem_of_containsSub v hsub hcop
      have hcv2 : c ∈ trimC v := mem_trimC hcws hcv
      exact parseSpecifierSet_ne_nil_of_mem hcv2
        (by simpa [decide_eq_false_iff_not] using hcne) hcws h

/-- Model of `parse_package_spec` never returns an empty clause set: a parsed
specification always carries at least one constraint clause. -/
theorem parsePackageSpec_specs_ne_nil {s : Chars} {ps : PackageSpec}
    (h : parsePackageSpec s = some ps) : ps.specs ≠ [] := by
  unfold parsePackageSpec at h
  cases hss : parseSpecifierSet (trimC (pspFix (pspSplit s).2)) with
  | none => rw [hss] at h; cases h
  | some ss =>
    rw [hss] at h
    cases h
    exact pspFix_parse_ne_nil hss

/-! ## Helper lemmas: conflict detection on reachable constraint maps -/

theorem foldl_append_ne_nil {α : Type} :
    ∀ (cs : List (List α)) (c0 : List α), c0 ≠ [] →
      cs.foldl (fun acc c => acc ++ c) c0 ≠ [] := by
  intro cs
  induction cs with
  | nil => intro c0 h; exact h
  | cons c cs ih =>
    intro c0 h
    simp only [List.foldl_cons]
    apply ih
    intro habs
    rcases List.append_eq_nil.mp habs with ⟨h0, -⟩
    exact h h0

/-- Model of `detect_conflicts` emits nothing when every recorded constraint has at
least one clause: the `not intersection` test only fires on an empty
combined clause set. -/
theorem detectConflicts_nil {st : RState} :
    ∀ cmap : CMap, (∀ p ∈ cmap, ∀ ss ∈ p.2, ss ≠ ([] : SpecifierSet)) →
      detectConflicts st cmap = [] := by
  intro cmap
  induction cmap with
  | nil => intro _; rfl
  | cons hd rest ih =>
    intro hpred
    obtain ⟨name, constraints⟩ := hd
    have hrest : detectConflicts st rest = [] :=
      ih (fun p hp => hpred p (List.mem_cons_of_mem _ hp))
    by_cases hlen : 1 < constraints.length
    · cases constraints with
      | nil => simp at hlen
      | cons c0 cs =>
        have hc0 : c0 ≠ [] :=
          hpred (name, c0 :: cs) (List.mem_cons_self _ _) c0 (List.mem_cons_self _ _)
        have hinter : (cs.foldl (fun acc c => acc ++ c) c0).isEmpty = false := by
          rw [List.isEmpty_eq_false_iff_exists_mem]
          cases hfe : cs.foldl (fun acc c => acc ++ c) c0 with
          | nil => exact absurd hfe (foldl_append_ne_nil cs c0 hc0)
          | cons y ys => exact ⟨y, by simp⟩
        simp only [detectConflicts, if_pos hlen, hinter, Bool.false_eq_true, if_false]
        exact hrest
    · simp only [detectConflicts, if_neg hlen]
      exact hrest

theorem addConstraint_pred {P : SpecifierSet → Prop} :
    ∀ (m : CMap) (name : Chars) (ss : SpecifierSet),
      (∀ p ∈ m, ∀ x ∈ p.2, P x) → P ss →
      ∀ p ∈ addConstraint m name ss, ∀ x ∈ p.2, P x := by
  intro m
  induction m with
  | nil =>
    intro name ss _ hss p hp x hx
    simp only [addConstraint, List.mem_singleton] at hp
    subst hp
    simp only [List.mem_singleton] at hx
    subst hx
    exact hss
  | cons q t ih =>
    intro name ss hm hss p hp x hx
    obtain ⟨k, l⟩ := q
    simp only [addConstraint] at hp
    by_cases hk : k = name
    · rw [if_pos hk] at hp
      rcases List.mem_cons.mp hp with rfl | hp
      · simp only at hx
        rcases List.mem_append.mp hx with hx | hx
        · exact hm (k, l) (List.mem_cons_self _ _) x hx
        · rw [List.mem_singleton] at hx
          subst hx
          exact hss
      · exact hm p (List.mem_cons_of_mem _ hp) x hx
    · rw [if_neg hk] at hp
      rcases List.mem_cons.mp hp with rfl | hp
      · exact hm (k, l) (List.mem_cons_self _ _) x hx
      · exact ih name ss (fun r hr => hm r (List.mem_cons_of_mem _ hr)) hss p hp x hx

theorem buildConstraints_go_pred {P : SpecifierSet → Prop} :
    ∀ (specs : List PackageSpec) (m : CMap),
      (∀ p ∈ m, ∀ x ∈ p.2, P x) → (∀ s ∈ specs, P s.specs) →
      ∀ p ∈ specs.foldl (fun m s => addConstraint m s.name s.specs) m, ∀ x ∈ p.2, P x := by
  intro specs
  induction specs with
  | nil => intro m hm _; exact hm
  | cons s rest ih =>
    intro m hm hs
    simp only [List.foldl_cons]
    apply ih
    · exact addConstraint_pred m s.name s.specs hm (hs s (List.mem_cons_self _ _))
    · intro r hr
      exact hs r (List.mem_cons_of_mem _ hr)

theorem mapMO_mem {α β : Type} (f : α → Option β) :
    ∀ (l : List α) (r : List β), mapMO f l = some r →
      ∀ y ∈ r, ∃ x ∈ l, f x = some y := by
  intro l
  induction l with
  | nil =>
    intro r h y hy
    simp only [mapMO] at h
    cases h
    cases hy
  | cons x xs ih =>
    intro r h y hy
    simp only [mapMO] at h
    cases hx : f x with
    | none => rw [hx] at h; cases h
    | some z =>
      rw [hx] at h
      cases hxs : mapMO f xs with
      | none => rw [hxs] at h; cases h
      | some zs =>
        rw [hxs] at h
        cases h
        rcases List.mem_cons.mp hy with rfl | hy
        · exact ⟨x, List.mem_cons_self _ _, hx⟩
        · obtain ⟨w, hw, hfw⟩ := ih zs hxs y hy
          exact ⟨w, List.mem_cons_of_mem _ hw, hfw⟩

/-- Every result `resolve_dependencies` actually returns has an empty
conflict list, an empty resolutions list, and `success = True`: parsed
constraints always have at least one clause, so the emptiness-based
`not intersection` test never fires. -/
theorem resolveDependencies_ok_shape {reg : Registry} {useP : Bool}
    {specStrings : List Chars} {py : Chars}
    {strat : Option ConflictResolutionStrategy} {res : ResolutionResult}
    (h : resolveDependencies reg useP specStrings py strat = .ok res) :
    res.packageConflicts = [] ∧ res.resolutions = [] ∧ res.success = true := by
  unfold resolveDependencies at h
  cases hm : mapMO parsePackageSpec specStrings with
  | none => rw [hm] at h; cases h
  | some specs =>
    rw [hm] at h
    simp only at h
    have hpred : ∀ p ∈ buildConstraints specs, ∀ x ∈ p.2, x ≠ ([] : SpecifierSet) := by
      unfold buildConstraints
      refine buildConstraints_go_pred (P := fun ss => ss ≠ ([] : SpecifierSet)) specs []
        (by intro p hp; cases hp) ?_
      intro s hs
      obtain ⟨str, -, hstr⟩ := mapMO_mem parsePackageSpec specStrings specs hm s hs
      exact parsePackageSpec_specs_ne_nil hstr
    cases hexp : (if useP && decide (3 < specs.length) then resolveParAll reg 30 py specs
        else resolveSeqAll reg py specs []) with
    | fuelOut => rw [hexp] at h; cases h
    | raised => rw [hexp] at h; cases h
    | ok st =>
      rw [hexp] at h
      dsimp only at h
      have hdc : detectConflicts st (buildConstraints specs) = [] :=
        detectConflicts_nil _ hpred
      rw [hdc] at h
      simp only [finishResolution, List.isEmpty_nil, Bool.not_true, Bool.false_and,
        Bool.false_eq_true, if_false] at h
      cases h
      refine ⟨rfl, rfl, rfl⟩

/-! ## Helper lemmas: association lists, counting, and termination -/

theorem alookup_ainsert {β : Type} :
    ∀ (l : List (Chars × β)) (k : Chars) (v : β) (n : Chars),
      alookup (ainsert l k v) n = if k = n then some v else alookup l n := by
  intro l
  induction l with
  | nil =>
    intro k v n
    simp [ainsert, alookup]
  | cons q t ih =>
    intro k v n
    obtain ⟨k1, v1⟩ := q
    simp only [ainsert]
    by_cases hk : k1 = k
    · subst hk
      by_cases hn : k1 = n
      · simp [alookup, hn]
      · simp [alookup, hn]
    · rw [if_neg hk]
      by_cases hn : k1 = n
      · subst hn
        have hkn : k ≠ k1 := fun he => hk he.symm
        simp [alookup, if_neg hkn]
      · simp only [alookup, if_neg hn]
        exact ih k v n

theorem alookup_appendDep_isSome :
    ∀ (st : RState) (p d n : Chars),
      (alookup (appendDep st p d) n).isSome = (alookup st n).isSome := by
  intro st
  induction st with
  | nil => intro p d n; simp [appendDep]
  | cons q t ih =>
    intro p d n
    obtain ⟨k, pkg⟩ := q
    simp only [appendDep]
    by_cases hp : k = p
    · rw [if_pos hp]
      by_cases hn : k = n
      · simp [alookup, hn]
      · simp [alookup, hn]
    · rw [if_neg hp]
      by_cases hn : k = n
      · simp [alookup, hn]
      · simp only [alookup, if_neg hn]
        exact ih p d n

theorem appendDep_keys :
    ∀ (st : RState) (p d : Chars),
      (appendDep st p d).map Prod.fst = st.map Prod.fst := by
  intro st
  induction st with
  | nil => intro p d; rfl
  | cons q t ih =>
    intro p d
    obtain ⟨k, pkg⟩ := q
    simp only [appendDep]
    by_cases hp : k = p
    · rw [if_pos hp]; rfl
    · rw [if_neg hp]
      simp [List.map_cons, ih p d]

theorem alookup_some_mem {β : Type} :
    ∀ (l : List (Chars × β)) (k : Chars) (v : β),
      alookup l k = some v → k ∈ l.map Prod.fst := by
  intro l
  induction l with
  | nil => intro k v h; cases h
  | cons q t ih =>
    intro k v h
    obtain ⟨k1, v1⟩ := q
    simp only [alookup] at h
    by_cases hk : k1 = k
    · subst hk
      simp only [List.map_cons]
      exact List.mem_cons_self _ _
    · rw [if_neg hk] at h
      simp only [List.map_cons, List.mem_cons]
      exact Or.inr (ih k v h)

theorem alookup_nilres {β : Type} :
    ∀ (l : List (Chars × β)) (k : Chars),
      alookup l k = none → k ∉ l.map Prod.fst := by
  intro l
  induction l with
  | nil => intro k _ h; cases h
  | cons q t ih =>
    intro k h hmem
    obtain ⟨k1, v1⟩ := q
    simp only [alookup] at h
    by_cases hk : k1 = k
    · rw [if_pos hk] at h; cases h
    · rw [if_neg hk] at h
      simp only [List.map_cons, List.mem_cons] at hmem
      rcases hmem with rfl | hmem
      · exact hk rfl
      · exact ih k h hmem

theorem filter_length_le {α : Type} (p q : α → Bool)
    (himp : ∀ x, q x = true → p x = true) :
    ∀ l : List α, (l.filter q).length ≤ (l.filter p).length := by
  intro l
  induction l with
  | nil => simp
  | cons x xs ih =>
    by_cases hq : q x = true
    · rw [List.filter_cons_of_pos hq, List.filter_cons_of_pos (himp x hq)]
      simpa using ih
    · rw [List.filter_cons_of_neg (by simpa using hq)]
      by_cases hp : p x = true
      · rw [List.filter_cons_of_pos hp]
        exact Nat.le_trans ih (Nat.le_succ _)
      · rw [List.filter_cons_of_neg (by simpa using hp)]
        exact ih

theorem filter_length_lt {α : Type} (p q : α → Bool)
    (himp : ∀ x, q x = true → p x = true) :
    ∀ (l : List α) (a : α), a ∈ l → p a = true → q a = false →
      (l.filter q).length < (l.filter p).length := by
  intro l
  induction l with
  | nil => intro a ha; cases ha
  | cons x xs ih =>
    intro a ha hpa hqa
    rcases List.mem_cons.mp ha with rfl | ha
    · rw [List.filter_cons_of_neg (by simp [hqa]), List.filter_cons_of_pos hpa]
      exact Nat.lt_succ_of_le (filter_length_le p q himp xs)
    · by_cases hq : q x = true
      · rw [List.filter_cons_of_pos hq, List.filter_cons_of_pos (himp x hq)]
        simpa using ih a ha hpa hqa
      · rw [List.filter_cons_of_neg (by simpa using hq)]
        by_cases hp : p x = true
        · rw [List.filter_cons_of_pos hp]
          exact Nat.lt_succ_of_lt (ih a ha hpa hqa)
        · rw [List.filter_cons_of_neg (by simpa using hp)]
          exact ih a ha hpa hqa

theorem unresolvedCount_le (reg : Registry) (st : RState) :
    unresolvedCount reg st ≤ reg.length := by
  unfold unresolvedCount
  calc ((reg.map Prod.fst).filter _).length ≤ (reg.map Prod.fst).length :=
        List.length_filter_le _ _
    _ = reg.length := List.length_map _ _

theorem unresolvedCount_le_of_mono {reg : Registry} {st st' : RState}
    (h : ResolvedMono st st') : unresolvedCount reg st' ≤ unresolvedCount reg st := by
  apply filter_length_le
  intro n hq
  simp only [Bool.not_eq_true'] at hq ⊢
  cases hsome : (alookup st n).isSome
  · rfl
  · rw [h n hsome] at hq
    simp at hq

theorem unresolvedCount_ainsert_lt {reg : Registry} {st : RState}
    {name : Chars} {d : PackageData} {v : ResolvedPackage}
    (hreg : alookup reg name = some d) (hst : alookup st name = none) :
    unresolvedCount reg (ainsert st name v) < unresolvedCount reg st := by
  apply filter_length_lt
  · intro x hq
    simp only [Bool.not_eq_true'] at hq ⊢
    rw [alookup_ainsert] at hq
    by_cases hx : name = x
    · rw [if_pos hx] at hq
      simp at hq
    · rw [if_neg hx] at hq
      exact hq
  · exact alookup_some_mem reg name d hreg
  · simp [hst]
  · simp [alookup_ainsert]

theorem unresolvedCount_appendDep (reg : Registry) (st : RState) (p d : Chars) :
    unresolvedCount reg (appendDep st p d) = unresolvedCount reg st := by
  unfold unresolvedCount
  congr 1
  apply List.filter_congr
  intro n _
  rw [alookup_appendDep_isSome]

theorem stepOK_refl (st : RState) : StepOK st st :=
  ⟨fun _ h => h, fun h => h⟩

theorem stepOK_trans {s1 s2 s3 : RState} (h1 : StepOK s1 s2) (h2 : StepOK s2 s3) :
    StepOK s1 s3 :=
  ⟨fun n h => h2.1 n (h1.1 n h), fun h => h2.2 (h1.2 h)⟩

theorem ainsert_keys {β : Type} :
    ∀ (l : List (Chars × β)) (k : Chars) (v : β),
      (ainsert l k v).map Prod.fst =
        if (alookup l k).isSome then l.map Prod.fst else l.map Prod.fst ++ [k] := by
  intro l
  induction l with
  | nil => intro k v; simp [ainsert, alookup]
  | cons q t ih =>
    intro k v
    obtain ⟨k1, v1⟩ := q
    simp only [ainsert, alookup]
    by_cases hk : k1 = k
    · subst hk
      simp
    · simp only [if_neg hk, List.map_cons, ih k v]
      by_cases hs : (alookup t k).isSome
      · simp [hs]
      · simp [hs]

theorem ainsert_mem {β : Type} :
    ∀ (l : List (Chars × β)) (k : Chars) (v : β) (kv : Chars × β),
      kv ∈ ainsert l k v → kv = (k, v) ∨ kv ∈ l := by
  intro l
  induction l with
  | nil =>
    intro k v kv h
    simp only [ainsert, List.mem_singleton] at h
    exact Or.inl h
  | cons q t ih =>
    intro k v kv h
    obtain ⟨k1, v1⟩ := q
    simp only [ainsert] at h
    by_cases hk : k1 = k
    · rw [if_pos hk] at h
      rcases List.mem_cons.mp h with rfl | h
      · exact Or.inl rfl
      · exact Or.inr (List.mem_cons_of_mem _ h)
    · rw [if_neg hk] at h
      rcases List.mem_cons.mp h with rfl | h
      · exact Or.inr (List.mem_cons_self _ _)
      · rcases ih k v kv h with h1 | h1
        · exact Or.inl h1
        · exact Or.inr (List.mem_cons_of_mem _ h1)

theorem stepOK_ainsert {st : RState} {k : Chars} {v : ResolvedPackage}
    (hname : v.name = k) : StepOK st (ainsert st k v) := by
  constructor
  · intro n h
    rw [alookup_ainsert]
    by_cases hk : k = n
    · simp [hk]
    · rw [if_neg hk]; exact h
  · intro hg
    constructor
    · rw [ainsert_keys]
      by_cases hs : (alookup st k).isSome
      · rw [if_pos hs]; exact hg.1
      · rw [if_neg hs]
        rw [List.nodup_append]
        refine ⟨hg.1, List.nodup_singleton _, ?_⟩
        intro x hx hx2
        rw [List.mem_singleton] at hx2
        subst hx2
        cases hlk : alookup st x with
        | none => exact alookup_nilres st x hlk hx
        | some w => rw [hlk] at hs; simp at hs
    · intro kv hkv
      rcases ainsert_mem st k v kv hkv with rfl | h
      · exact hname
      · exact hg.2 kv h

theorem appendDep_mem :
    ∀ (st : RState) (p d : Chars) (kv : Chars × ResolvedPackage),
      kv ∈ appendDep st p d →
      ∃ kv0 ∈ st, kv.1 = kv0.1 ∧ kv.2.name = kv0.2.name := by
  intro st
  induction st with
  | nil => intro p d kv h; cases h
  | cons q t ih =>
    intro p d kv h
    obtain ⟨k, pkg⟩ := q
    simp only [appendDep] at h
    by_cases hp : k = p
    · rw [if_pos hp] at h
      rcases List.mem_cons.mp h with rfl | h
      · exact ⟨(k, pkg), List.mem_cons_self _ _, rfl, rfl⟩
      · exact ⟨kv, List.mem_cons_of_mem _ h, rfl, rfl⟩
    · rw [if_neg hp] at h
      rcases List.mem_cons.mp h with rfl | h
      · exact ⟨(k, pkg), List.mem_cons_self _ _, rfl, rfl⟩
      · obtain ⟨kv0, hkv0, h1, h2⟩ := ih p d kv h
        exact ⟨kv0, List.mem_cons_of_mem _ hkv0, h1, h2⟩

theorem stepOK_appendDep (st : RState) (p d : Chars) : StepOK st (appendDep st p d) := by
  constructor
  · intro n h
    rw [alookup_appendDep_isSome]
    exact h
  · intro hg
    constructor
    · rw [appendDep_keys]; exact hg.1
    · intro kv hkv
      obtain ⟨kv0, hkv0, h1, h2⟩ := appendDep_mem st p d kv hkv
      rw [h1, h2]
      exact hg.2 kv0 hkv0

/-- A non-empty compatible-version list implies the package is in the
registry (an absent package yields an empty candidate list). -/
theorem findPyCompat_nonnil_mem {reg : Registry} {mv : Nat} {name py : Chars}
    {spec : Option PackageSpec} {k : Nat} {l : List Chars}
    (h : findPythonCompatibleVersions reg mv name py spec k = .ok l) (hne : l ≠ []) :
    ∃ d, alookup reg name = some d := by
  cases hreg : alookup reg name with
  | some d => exact ⟨d, rfl⟩
  | none =>
    exfalso
    unfold findPythonCompatibleVersions at h
    unfold getAvailableVersions at h
    rw [hreg] at h
    dsimp only at h
    cases h
    exact hne rfl

/-- A selected optimal version implies the package is in the registry. -/
theorem findOptimal_some_mem {reg : Registry} {mv : Nat} {name py : Chars}
    {spec : Option PackageSpec} {ps : Bool} {v : Chars}
    (h : findOptimalVersion reg mv name py spec ps = .ok (some v)) :
    ∃ d, alookup reg name = some d := by
  unfold findOptimalVersion at h
  cases hfc : findPythonCompatibleVersions reg mv name py spec 5 with
  | error e => rw [hfc] at h; cases h
  | ok compat =>
    rw [hfc] at h
    cases compat with
    | nil => cases h
    | cons c cs => exact findPyCompat_nonnil_mem hfc (by simp)

/-- Model of `_resolve_package_optimized` only grows the resolved map and preserves
the shared-map invariant. -/
theorem resolveP_stepOK (reg : Registry) (py : Chars) :
    ∀ (fuel : Nat) (spec : PackageSpec) (st st' : RState),
      resolveP reg py fuel spec st = .ok st' → StepOK st st' := by
  intro fuel
  induction fuel with
  | zero =>
    intro spec st st' h
    simp only [resolveP] at h
    cases h
  | succ f ih =>
    have hstep : ∀ (deps : List Chars) (parent : Chars) (st st' : RState),
        stepDeps (resolveP reg py f) deps parent st = .ok st' → StepOK st st' := by
      intro deps
      induction deps with
      | nil =>
        intro parent st st' h
        simp only [stepDeps] at h
        cases h
        exact stepOK_refl st
      | cons d rest ihd =>
        intro parent st st' h
        simp only [stepDeps] at h
        cases hpd : parseDependencyString d with
        | error e => rw [hpd] at h; cases h
        | ok od =>
          rw [hpd] at h
          cases od with
          | none =>
            dsimp only at h
            exact ihd parent st st' h
          | some ds =>
            dsimp only at h
            cases halo : alookup st ds.name with
            | some pkg =>
              rw [halo] at h
              dsimp only at h
              exact ihd parent st st' h
            | none =>
              rw [halo] at h
              dsimp only at h
              cases hrec : resolveP reg py f ds st with
              | fuelOut => rw [hrec] at h; cases h
              | raised => rw [hrec] at h; cases h
              | ok st1 =>
                rw [hrec] at h
                dsimp only at h
                exact stepOK_trans (ih ds st st1 hrec)
                  (stepOK_trans (stepOK_appendDep st1 parent ds.name)
                    (ihd parent _ st' h))
    intro spec st st' h
    simp only [resolveP] at h
    cases halo : alookup st spec.name with
    | some pkg =>
      rw [halo] at h
      dsimp only at h
      cases h
      exact stepOK_refl st
    | none =>
      rw [halo] at h
      dsimp only at h
      cases hfo : findOptimalVersion reg 30 spec.name py (some spec) true with
      | error e => rw [hfo] at h; cases h
      | ok sel =>
        rw [hfo] at h
        cases sel with
        | some v =>
          dsimp only at h
          refine stepOK_trans ?_ (hstep _ _ _ _ h)
          exact stepOK_ainsert rfl
        | none =>
          dsimp only at h
          cases hfc : findPythonCompatibleVersions reg 30 spec.name py (some spec) 5 with
          | error e => rw [hfc] at h; cases h
          | ok compat =>
            cases compat with
            | nil =>
              rw [hfc] at h
              dsimp only at h
              cases h
              exact stepOK_refl st
            | cons c cs =>
              rw [hfc] at h
              dsimp only at h
              cases hgl : (c :: cs).getLast? with
              | none =>
                rw [hgl] at h
                dsimp only at h
                cases h
                exact stepOK_refl st
              | some v =>
                rw [hgl] at h
                dsimp only at h
                refine stepOK_trans ?_ (hstep _ _ _ _ h)
                exact stepOK_ainsert rfl

/-- With fuel exceeding the number of unresolved registry packages,
`_resolve_package_optimized` cannot exhaust its fuel: the Python recursion
terminates on every registry, cyclic ones included. -/
theorem resolveP_no_fuelOut (reg : Registry) (py : Chars) :
    ∀ (fuel : Nat) (spec : PackageSpec) (st : RState),
      unresolvedCount reg st < fuel → resolveP reg py fuel spec st ≠ .fuelOut := by
  intro fuel
  induction fuel with
  | zero =>
    intro spec st hc
    exact absurd hc (Nat.not_lt_zero _)
  | succ f ih =>
    have hstep : ∀ (deps : List Chars) (parent : Chars) (st0 : RState),
        unresolvedCount reg st0 < f →
        stepDeps (resolveP reg py f) deps parent st0 ≠ .fuelOut := by
      intro deps
      induction deps with
      | nil =>
        intro parent st0 hc
        simp [stepDeps]
      | cons d rest ihd =>
        intro parent st0 hc
        simp only [stepDeps]
        cases hpd : parseDependencyString d with
        | error e => simp
        | ok od =>
          cases od with
          | none => exact ihd parent st0 hc
          | some ds =>
            dsimp only
            cases halo : alookup st0 ds.name with
            | some pkg => exact ihd parent st0 hc
            | none =>
              cases hrec : resolveP reg py f ds st0 with
              | fuelOut => exact absurd hrec (ih ds st0 hc)
              | raised => simp
              | ok st1 =>
                dsimp only
                have hm := (resolveP_stepOK reg py f ds st0 st1 hrec).1
                have hle : unresolvedCount reg (appendDep st1 parent ds.name) ≤
                    unresolvedCount reg st0 := by
                  rw [unresolvedCount_appendDep]
                  exact unresolvedCount_le_of_mono hm
                exact ihd parent _ (Nat.lt_of_le_of_lt hle hc)
    intro spec st hc
    simp only [resolveP]
    cases halo : alookup st spec.name with
    | some pkg => simp
    | none =>
      dsimp only
      cases hfo : findOptimalVersion reg 30 spec.name py (some spec) true with
      | error e => simp
      | ok sel =>
        cases sel with
        | some v =>
          dsimp only
          obtain ⟨d, hd⟩ := findOptimal_some_mem hfo
          apply hstep
          exact Nat.lt_of_lt_of_le (unresolvedCount_ainsert_lt hd halo)
            (Nat.lt_succ_iff.mp hc)
        | none =>
          dsimp only
          cases hfc : findPythonCompatibleVersions reg 30 spec.name py (some spec) 5 with
          | error e => simp
          | ok compat =>
            cases compat with
            | nil => simp
            | cons c cs =>
              dsimp only
              cases hgl : (c :: cs).getLast? with
              | none => simp
              | some v =>
                dsimp only
                obtain ⟨d, hd⟩ := findPyCompat_nonnil_mem hfc (by simp)
                apply hstep
                exact Nat.lt_of_lt_of_le (unresolvedCount_ainsert_lt hd halo)
                  (Nat.lt_succ_iff.mp hc)

/-- Sequential expansion never exhausts the fuel bound `fuelFor reg`. -/
theorem resolveSeqAll_no_fuelOut (reg : Registry) (py : Chars) :
    ∀ (specs : List PackageSpec) (st : RState),
      resolveSeqAll reg py specs st ≠ .fuelOut := by
  intro specs
  induction specs with
  | nil => intro st; simp [resolveSeqAll]
  | cons s rest ih =>
    intro st
    simp only [resolveSeqAll]
    cases hr : resolveP reg py (fuelFor reg) s st with
    | fuelOut =>
      exact absurd hr (resolveP_no_fuelOut reg py (fuelFor reg) s st
        (Nat.lt_succ_of_le (unresolvedCount_le reg st)))
    | raised => simp
    | ok st1 => exact ih st1

/-- Sequential expansion preserves the shared-map invariant. -/
theorem resolveSeqAll_stepOK (reg : Registry) (py : Chars) :
    ∀ (specs : List PackageSpec) (st st' : RState),
      resolveSeqAll reg py specs st = .ok st' → StepOK st st' := by
  intro specs
  induction specs with
  | nil =>
    intro st st' h
    simp only [resolveSeqAll] at h
    cases h
    exact stepOK_refl st
  | cons s rest ih =>
    intro st st' h
    simp only [resolveSeqAll] at h
    cases hr : resolveP reg py (fuelFor reg) s st with
    | fuelOut => rw [hr] at h; cases h
    | raised => rw [hr] at h; cases h
    | ok st1 =>
      rw [hr] at h
      exact stepOK_trans (resolveP_stepOK reg py (fuelFor reg) s st st1 hr)
        (ih st1 st' h)

theorem cmpV_nil_right_ne_lt : ∀ v : Version, cmpV v [] ≠ .lt := by
  intro v
  induction v with
  | nil => simp [cmpV, allZero]
  | cons a as_ ih =>
    simp only [cmpV]
    by_cases ha : a = 0
    · rw [if_pos ha]; exact ih
    · rw [if_neg ha]; simp

theorem cmpV_zero_ne_lt : ∀ v : Version, cmpV v [0] ≠ .lt := by
  intro v
  cases v with
  | nil => simp [cmpV, allZero]
  | cons a as_ =>
    simp only [cmpV, Nat.not_lt_zero, if_false]
    by_cases ha : 0 < a
    · rw [if_pos ha]; simp
    · rw [if_neg ha]
      exact cmpV_nil_right_ne_lt as_

/-! ## Claim theorems -/

/-- C1 (code bug): for the run with specifications `pkgX==1.0.0` and
`pkgX==2.0.0` against a registry in which `pkgx` exists with both versions,
`resolve_dependencies` reports NO conflict at all — the parser rewrites
both specifications to `>=`-constraints and `detect_conflicts` only fires
when the combined clause set is empty — contradicting the specified
"exactly one auto-resolvable Conflict for pkgX". -/
theorem C1_conflict_detection_dead :
    packageConflictsOf (resolveDependencies regX false
      [strL "pkgX==1.0.0", strL "pkgX==2.0.0"] (strL "3.9") none) = some [] := by decide

/-- C2 (code bug): `parse_package_spec` on `pkgX>=1.0,<2.0` raises
(`InvalidSpecifier`: the split yields the clause text `1.0,<2.0`), and on
`pkgX==1.0.0` it produces the constraint `>=1.0.0`, which contains `1.0.0`
but also contains `2.0.0` — the claim requires the parse to succeed for the
first and to exclude `2.0.0` for the second. -/
theorem C2_parse_containment_behavior :
    parsePackageSpec (strL "pkgX>=1.0,<2.0") = none ∧
    (parsePackageSpec (strL "pkgX==1.0.0")).map
      (fun ps => (ssContains ps.specs [1, 0, 0], ssContains ps.specs [2, 0, 0])) =
      some (true, true) := by decide

/-- C3 (confirmed): in every `ResolutionResult` actually returned by
`resolve_dependencies`, `success` is true iff the conflict list is empty or
every conflict has an associated resolution record — degenerately so: the
reachable results always have an empty conflict list and `success = True`,
because parsed constraints always carry at least one clause and the
emptiness-based `not intersection` test then never emits a conflict. -/
theorem C3_success_iff_conflicts_resolved {reg : Registry} {useP : Bool}
    {specStrings : List Chars} {py : Chars}
    {strat : Option ConflictResolutionStrategy} {res : ResolutionResult}
    (h : resolveDependencies reg useP specStrings py strat = .ok res) :
    res.success = true ↔
      (res.packageConflicts = [] ∨
        ∀ c ∈ res.packageConflicts, ∃ r ∈ res.resolutions,
          r.packageName = c.packageName) := by
  obtain ⟨hc, -, hs⟩ := resolveDependencies_ok_shape h
  constructor
  · intro _
    exact Or.inl hc
  · intro _
    exact hs

/-- Witness for C3 at the cyclic two-package registry. -/
theorem C3_witness :
    c3res.success = true ↔
      (c3res.packageConflicts = [] ∨
        ∀ c ∈ c3res.packageConflicts, ∃ r ∈ c3res.resolutions,
          r.packageName = c.packageName) :=
  C3_success_iff_conflicts_resolved
    ((by decide : resolveDependencies regAB false [strL "a"] (strL "3.9") none = .ok c3res))

/-- C4 counterexample: with a detected conflict and the `fail` strategy, the
post-detection phase of `resolve_dependencies` returns a perfectly normal
`ResolutionResult` (conflict listed, no resolutions, `success = False`) —
it does not abort: the `ValueError` raised by `resolve_conflicts` is caught
by the `except ValueError: pass` at resolver.py:127. -/
theorem C4_fail_returns_normal_result :
    finishResolution regX 30 (strL "3.9") [conflict0] { strategy := .failMode } [] =
      .ok { packages := []
            conflicts := [conflict0.reason]
            packageConflicts := [conflict0]
            resolutions := []
            warnings := []
            success := false
            dependencyTree := []
            strategy := { strategy := .failMode } } := by decide

/-- C4 (amended): under the `fail` strategy, any non-empty detected conflict
list makes `resolve_conflicts` raise a `ValueError`, but
`resolve_dependencies` catches it and returns a normal result carrying the
conflicts, an empty resolutions list and `success = False`; no error
surfaces to the caller. -/
theorem C4_fail_swallowed (reg : Registry) (mv : Nat) (py : Chars)
    (conflicts : List PackageConflict) (strategy : ConflictResolutionStrategy)
    (st : RState) (hs : strategy.strategy = .failMode) (hne : conflicts ≠ []) :
    finishResolution reg mv py conflicts strategy st =
      .ok { packages := st.map (fun kv => kv.2)
            conflicts := conflicts.map (fun c => c.reason)
            packageConflicts := conflicts
            resolutions := []
            warnings := []
            success := false
            dependencyTree := buildDependencyTree st
            strategy := strategy } := by
  cases conflicts with
  | nil => exact absurd rfl hne
  | cons c cs =>
    have hrc : resolveConflicts reg mv py strategy (c :: cs) [] = .error .valueError := by
      simp only [resolveConflicts, hs]
    simp only [finishResolution, List.isEmpty_cons, Bool.not_false, hs, hrc]
    simp

/-- Witness for C4's amended statement at a concrete conflict. -/
theorem C4_fail_swallowed_witness :
    finishResolution regAB 30 (strL "3.9") [conflict0]
        { strategy := .failMode, preferLatest := false } stAB =
      .ok { packages := stAB.map (fun kv => kv.2)
            conflicts := [conflict0].map (fun c => c.reason)
            packageConflicts := [conflict0]
            resolutions := []
            warnings := []
            success := false
            dependencyTree := buildDependencyTree stAB
            strategy := { strategy := .failMode, preferLatest := false } } :=
  C4_fail_swallowed regAB 30 (strL "3.9") [conflict0]
    { strategy := .failMode, preferLatest := false } stAB rfl (by decide)

/-- C5 (confirmed): sequential expansion terminates on every registry
(cyclic ones included: the fuel bound `|registry| + 1` is never exhausted),
every completed resolution holds exactly one `ResolvedPackage` per distinct
package name (the package-name list of the resolved map has no
duplicates), and on the cyclic `a ↔ b` registry the run completes with
exactly one entry each for `a` and `b`. -/
theorem C5_termination_one_per_name :
    (∀ (reg : Registry) (py : Chars) (specs : List PackageSpec),
      resolveSeqAll reg py specs [] ≠ .fuelOut) ∧
    (∀ (reg : Registry) (py : Chars) (specs : List PackageSpec) (st : RState),
      resolveSeqAll reg py specs [] = .ok st →
      (st.map (fun kv => kv.2.name)).Nodup) ∧
    resolveSeqAll regAB (strL "3.9") [specAB] [] = .ok stAB := by
  refine ⟨?_, ?_, by decide⟩
  · intro reg py specs
    exact resolveSeqAll_no_fuelOut reg py specs []
  · intro reg py specs st h
    have hg : GoodState st :=
      (resolveSeqAll_stepOK reg py specs [] st h).2
        ⟨List.nodup_nil, by intro kv hkv; cases hkv⟩
    have hmap : st.map (fun kv => kv.2.name) = st.map Prod.fst :=
      List.map_congr_left (fun kv hkv => hg.2 kv hkv)
    rw [hmap]
    exact hg.1

/-- Witness for C5's uniqueness part at the cyclic registry. -/
theorem C5_witness : (stAB.map (fun kv => kv.2.name)).Nodup :=
  C5_termination_one_per_name.2.1 regAB (strL "3.9") [specAB] stAB (by decide)

/-- C6 counterexample: in the cyclic run, while expanding `b` the declared
dependency `a` names an already-resolved package, and the final dependency
tree records NO edge from `b` — `b`'s dependency list is empty instead of
containing `a` as the claim requires. -/
theorem C6_edge_dropped_on_reencounter :
    resolveDependencies regAB false [strL "a"] (strL "3.9") none = .ok c3res ∧
    alookup c3res.dependencyTree (strL "b") = some [] := ⟨by decide, by decide⟩

/-- C6 (amended): when a declared dependency parses to a package name that is
already present in the resolved map, the expansion step is a complete
no-op: the loop moves to the next dependency with the state unchanged, and
in particular no dependency edge is appended to the parent. -/
theorem C6_reencounter_noop (rec : PackageSpec → RState → RRes RState)
    (d : Chars) (rest : List Chars) (parent : Chars) (st : RState)
    (ds : PackageSpec) (hparse : parseDependencyString d = .ok (some ds))
    (hres : (alookup st ds.name).isSome = true) :
    stepDeps rec (d :: rest) parent st = stepDeps rec rest parent st := by
  simp only [stepDeps, hparse]
  obtain ⟨pkg, hpkg⟩ := Option.isSome_iff_exists.mp hres
  rw [hpkg]

/-- Witness for C6's amended statement: re-encountering `a` inside the
cyclic registry's resolved map skips the dependency entirely. -/
theorem C6_reencounter_noop_witness :
    stepDeps (resolveP regAB (strL "3.9") 1) [strL "a"] (strL "b") stAB =
      stepDeps (resolveP regAB (strL "3.9") 1) [] (strL "b") stAB :=
  C6_reencounter_noop (resolveP regAB (strL "3.9") 1) (strL "a") [] (strL "b")
    stAB specAB (by decide) (by decide)

/-- C7 counterexample: a bare package name does NOT parse to an empty clause
set — `parse_package_spec` substitutes the version text `">=0"`, one
clause. -/
theorem C7_bare_name_not_empty_clause :
    (parsePackageSpec (strL "pkgX")).map (fun ps => ps.specs.isEmpty) = some false := by decide

/-- C7 (amended): a bare package name parses to the single-clause constraint
`>=0`, which contains every version — unconstrained in effect — and whose
clause set is non-empty, hence distinguishable from an empty clause set
(the state `detect_conflicts` treats as the conflict trigger). -/
theorem C7_bare_name_unconstrained :
    parsePackageSpec (strL "pkgX") =
      some ⟨strL "pkgx", strL ">=0", [⟨Op.ge, strL "0", [0]⟩]⟩ ∧
    (∀ v : Version, ssContains [⟨Op.ge, strL "0", [0]⟩] v = true) ∧
    ([⟨Op.ge, strL "0", [0]⟩] : SpecifierSet) ≠ [] := by
  refine ⟨by decide, ?_, by decide⟩
  intro v
  have hne := cmpV_zero_ne_lt v
  simp [ssContains, specContains, hne]

/-- C8 (code bug): a single malformed version key in the release index makes
`get_available_versions` raise (`sorted(key=parse)` propagates
`InvalidVersion` with `packaging>=23`), aborting the listing instead of
excluding the entry. -/
theorem C8_malformed_version_raises :
    getAvailableVersions regMal 50 (strL "pkgy") = .error () := by decide

/-- C9 (confirmed): a metadata read through the provider's cache is served
from cache iff the elapsed time since the stored timestamp is strictly
below the ttl: within the ttl the hit counter increments and no fetch
happens (the cached document is returned and the rest of the state is
untouched); at or beyond the ttl the miss and api-call counters increment
and the registry is re-queried. -/
theorem C9_cache_ttl_boundary (reg : Registry) (ttl now : Nat) (name : Chars)
    (st : ClientState) (d : PackageData) (ts : Nat)
    (hc : alookup st.infoCache name = some d)
    (ht : alookup st.timestamps name = some ts) :
    (now - ts < ttl →
      getPackageInfoC reg ttl now name st =
        (some d,
          { st with stats := { st.stats with cacheHits := st.stats.cacheHits + 1 } })) ∧
    (ttl ≤ now - ts →
      (getPackageInfoC reg ttl now name st).1 = alookup reg name ∧
      (getPackageInfoC reg ttl now name st).2.stats.cacheMisses =
        st.stats.cacheMisses + 1 ∧
      (getPackageInfoC reg ttl now name st).2.stats.apiCalls =
        st.stats.apiCalls + 1 ∧
      (getPackageInfoC reg ttl now name st).2.stats.cacheHits =
        st.stats.cacheHits) := by
  constructor
  · intro hlt
    have hv : isCacheValid ttl now st name = true := by
      simp [isCacheValid, ht, hlt]
    simp [getPackageInfoC, hv, hc]
  · intro hge
    have hv : isCacheValid ttl now st name = false := by
      simp only [isCacheValid, ht]
      simp
      omega
    simp only [getPackageInfoC, hv, Bool.false_eq_true, if_false]
    cases hr : alookup reg name with
    | some dd => simp [hr]
    | none => simp [hr]

/-- Witness for C9: timestamp 5, ttl 10 — a read at time 7 hits the cache,
a read at time 20 re-fetches and counts a miss and an api call. -/
theorem C9_witness :
    (getPackageInfoC regDF 10 7 (strL "p") c9st =
      (some c9data,
        { c9st with stats := { c9st.stats with cacheHits := c9st.stats.cacheHits + 1 } })) ∧
    ((getPackageInfoC regDF 10 20 (strL "p") c9st).1 = alookup regDF (strL "p") ∧
      (getPackageInfoC regDF 10 20 (strL "p") c9st).2.stats.cacheMisses =
        c9st.stats.cacheMisses + 1 ∧
      (getPackageInfoC regDF 10 20 (strL "p") c9st).2.stats.apiCalls =
        c9st.stats.apiCalls + 1 ∧
      (getPackageInfoC regDF 10 20 (strL "p") c9st).2.stats.cacheHits =
        c9st.stats.cacheHits) :=
  ⟨(C9_cache_ttl_boundary regDF 10 7 (strL "p") c9st c9data 5
      (by decide) (by decide)).1 (by decide),
   (C9_cache_ttl_boundary regDF 10 20 (strL "p") c9st c9data 5
      (by decide) (by decide)).2 (by decide)⟩

/-- C10 counterexample: same registry, same four specifications — the
sequential strategy resolves `b` to 1.0.0 (chosen while expanding `a`'s
`<=1.0.0`-constrained dependency, then memoized), while the parallel
strategy overwrites `b` with the batch-resolved 2.0.0 (computed from the
unconstrained direct specification). The final version selections differ. -/
theorem C10_seq_par_differ :
    pkgVersionOf (resolveDependencies reg10 false specs10 (strL "3.9") none)
      (strL "b") = some (strL "1.0.0") ∧
    pkgVersionOf (resolveDependencies reg10 true specs10 (strL "3.9") none)
      (strL "b") = some (strL "2.0.0") := by
  constructor
  · decide
  · decide

theorem alookup_mem {β : Type} :
    ∀ (l : List (Chars × β)) (k : Chars) (v : β),
      alookup l k = some v → (k, v) ∈ l := by
  intro l
  induction l with
  | nil => intro k v h; cases h
  | cons q t ih =>
    intro k v h
    obtain ⟨k1, v1⟩ := q
    simp only [alookup] at h
    by_cases hk : k1 = k
    · rw [if_pos hk] at h
      cases h
      subst hk
      exact List.mem_cons_self _ _
    · rw [if_neg hk] at h
      exact List.mem_cons_of_mem _ (ih k v h)

theorem getDependencies_nil {reg : Registry} (hdf : DepFree reg) :
    ∀ n v : Chars, getDependencies reg n v = [] := by
  intro n v
  unfold getDependencies getPackageMetadata
  cases hr : alookup reg n with
  | none => rfl
  | some d =>
    dsimp only
    cases hrel : alookup d.releases v with
    | none => rfl
    | some info =>
      dsimp only
      exact hdf (n, d) (alookup_mem reg n d hr) (v, info) (alookup_mem d.releases v info hrel)

theorem mapMO_isSome {α β : Type} (f : α → Option β) :
    ∀ l : List α, (∀ x ∈ l, (f x).isSome = true) → ∃ r, mapMO f l = some r := by
  intro l
  induction l with
  | nil => intro _; exact ⟨[], rfl⟩
  | cons x xs ih =>
    intro h
    obtain ⟨y, hy⟩ := Option.isSome_iff_exists.mp (h x (List.mem_cons_self _ _))
    obtain ⟨r, hr⟩ := ih (fun z hz => h z (List.mem_cons_of_mem _ hz))
    exact ⟨y :: r, by simp [mapMO, hy, hr]⟩

theorem getAvailableVersions_ok {reg : Registry} (hwf : WFVersions reg)
    (mv : Nat) (n : Chars) : ∃ l, getAvailableVersions reg mv n = .ok l := by
  unfold getAvailableVersions
  cases hr : alookup reg n with
  | none => exact ⟨[], rfl⟩
  | some d =>
    dsimp only
    have hall : ∀ v ∈ d.releases.map (fun r => r.1),
        ((parseVersion v).map (fun pv => (v, pv))).isSome = true := by
      intro v hv
      rw [List.mem_map] at hv
      obtain ⟨rel, hrel, rfl⟩ := hv
      obtain ⟨pv, hpv⟩ := Option.isSome_iff_exists.mp (hwf (n, d) (alookup_mem reg n d hr) rel hrel)
      simp [hpv]
    obtain ⟨r, hrp⟩ := mapMO_isSome _ _ hall
    rw [hrp]
    exact ⟨_, rfl⟩

theorem findPyCompat_ok {reg : Registry} (hwf : WFVersions reg)
    (mv : Nat) (n py : Chars) (spec : Option PackageSpec) (k : Nat) :
    ∃ l, findPythonCompatibleVersions reg mv n py spec k = .ok l := by
  unfold findPythonCompatibleVersions
  obtain ⟨av, hav⟩ := getAvailableVersions_ok hwf mv n
  rw [hav]
  exact ⟨_, rfl⟩

theorem cons_getLast?_isSome {α : Type} :
    ∀ (c : α) (cs : List α), ((c :: cs).getLast?).isSome = true := by
  intro c cs
  induction cs generalizing c with
  | nil => rfl
  | cons d ds ih =>
    rw [List.getLast?_cons_cons]
    exact ih d

theorem findOptimal_ok {reg : Registry} (hwf : WFVersions reg)
    (mv : Nat) (n py : Chars) (spec : Option PackageSpec) (ps : Bool) :
    ∃ o, findOptimalVersion reg mv n py spec ps = .ok o := by
  unfold findOptimalVersion
  obtain ⟨l, hl⟩ := findPyCompat_ok hwf mv n py spec 5
  rw [hl]
  cases l with
  | nil => exact ⟨none, rfl⟩
  | cons c cs =>
    dsimp only
    by_cases hps : ps = true
    · rw [if_pos hps]
      cases hgl : (List.filter _ (c :: cs)).getLast? with
      | some v => exact ⟨some v, rfl⟩
      | none => exact ⟨_, rfl⟩
    · rw [if_neg hps]
      exact ⟨_, rfl⟩

theorem findOptimal_none_imp {reg : Registry} {mv : Nat} {n py : Chars}
    {spec : Option PackageSpec} {ps : Bool}
    (h : findOptimalVersion reg mv n py spec ps = .ok none) :
    findPythonCompatibleVersions reg mv n py spec 5 = .ok [] := by
  unfold findOptimalVersion at h
  cases hfc : findPythonCompatibleVersions reg mv n py spec 5 with
  | error e => rw [hfc] at h; cases h
  | ok l =>
    rw [hfc] at h
    cases l with
    | nil => rfl
    | cons c cs =>
      exfalso
      dsimp only at h
      by_cases hps : ps = true
      · rw [if_pos hps] at h
        cases hgl : (List.filter
            (fun v => !stableSuffixes.any (fun suf => containsSub suf (lowerC v)))
            (c :: cs)).getLast? with
        | some v => rw [hgl] at h; cases h
        | none =>
          rw [hgl] at h
          dsimp only at h
          obtain ⟨w, hw⟩ := Option.isSome_iff_exists.mp (cons_getLast?_isSome c cs)
          rw [hw] at h
          cases h
      · rw [if_neg hps] at h
        obtain ⟨w, hw⟩ := Option.isSome_iff_exists.mp (cons_getLast?_isSome c cs)
        rw [hw] at h
        cases h

/-- On a dependency-free, well-formed registry, one sequential step has the
closed form `seqStep`. -/
theorem resolveP_depfree {reg : Registry} {py : Chars}
    (hdf : DepFree reg) (hwf : WFVersions reg) :
    ∀ (f : Nat) (spec : PackageSpec) (st : RState),
      resolveP reg py (f + 1) spec st = .ok (seqStep reg py st spec) := by
  intro f spec st
  show resolveP reg py (Nat.succ f) spec st = .ok (seqStep reg py st spec)
  simp only [resolveP]
  cases halo : alookup st spec.name with
  | some pkg =>
    dsimp only
    simp [seqStep, halo]
  | none =>
    dsimp only
    cases hfo : findOptimalVersion reg 30 spec.name py (some spec) true with
    | error e =>
      exfalso
      obtain ⟨o, ho⟩ := findOptimal_ok hwf 30 spec.name py (some spec) true
      rw [hfo] at ho
      cases ho
    | ok sel =>
      cases sel with
      | some v =>
        dsimp only
        rw [getDependencies_nil hdf spec.name v]
        simp [stepDeps, seqStep, halo, optV, hfo]
      | none =>
        dsimp only
        rw [findOptimal_none_imp hfo]
        dsimp only
        simp [seqStep, halo, optV, hfo]

/-- Closed form of the whole sequential strategy on a dependency-free,
well-formed registry. -/
theorem resolveSeqAll_depfree {reg : Registry} {py : Chars}
    (hdf : DepFree reg) (hwf : WFVersions reg) :
    ∀ (specs : List PackageSpec) (st : RState),
      resolveSeqAll reg py specs st = .ok (specs.foldl (seqStep reg py) st) := by
  intro specs
  induction specs with
  | nil => intro st; simp [resolveSeqAll]
  | cons s rest ih =>
    intro st
    simp only [resolveSeqAll, fuelFor]
    rw [resolveP_depfree hdf hwf reg.length s st]
    simp only [List.foldl_cons]
    exact ih (seqStep reg py st s)

theorem batchStep_other {reg : Registry} {mv : Nat} {py : Chars}
    {m : List (Chars × Chars)} {spec : PackageSpec} {n : Chars}
    (hne : spec.name ≠ n) :
    alookup (batchStep reg mv py m spec) n = alookup m n := by
  unfold batchStep
  cases findOptimalVersion reg mv spec.name py (some spec) true with
  | error e => rfl
  | ok sel =>
    cases sel with
    | none => rfl
    | some v =>
      dsimp only
      rw [alookup_ainsert, if_neg hne]

theorem batch_preserve {reg : Registry} {mv : Nat} {py : Chars} :
    ∀ (specs : List PackageSpec) (m : List (Chars × Chars)) (n : Chars),
      (∀ s ∈ specs, s.name ≠ n) →
      alookup (specs.foldl (batchStep reg mv py) m) n = alookup m n := by
  intro specs
  induction specs with
  | nil => intro m n _; rfl
  | cons s rest ih =>
    intro m n h
    simp only [List.foldl_cons]
    rw [ih (batchStep reg mv py m s) n (fun r hr => h r (List.mem_cons_of_mem _ hr))]
    exact batchStep_other (h s (List.mem_cons_self _ _))

/-- Looking up a specification's name in the batch result yields exactly
the per-package optimal choice, when names are distinct. -/
theorem batch_lookup {reg : Registry} {mv : Nat} {py : Chars} :
    ∀ (specs : List PackageSpec) (m : List (Chars × Chars)),
      (∀ s ∈ specs, alookup m s.name = none) →
      (specs.map (fun s => s.name)).Nodup →
      ∀ spec ∈ specs,
        alookup (specs.foldl (batchStep reg mv py) m) spec.name =
          optV reg mv py spec := by
  intro specs
  induction specs with
  | nil => intro m _ _ spec hspec; cases hspec
  | cons s rest ih =>
    intro m hnone hnd spec hspec
    simp only [List.map_cons, List.nodup_cons] at hnd
    obtain ⟨hs_not, hnd1⟩ := hnd
    simp only [List.foldl_cons]
    rcases List.mem_cons.mp hspec with rfl | hspec
    · rw [batch_preserve rest (batchStep reg mv py m spec) spec.name ?hne]
      case hne =>
        intro s' hs' he
        exact hs_not (List.mem_map.mpr ⟨s', hs', he⟩)
      unfold batchStep optV
      cases hfo : findOptimalVersion reg mv spec.name py (some spec) true with
      | error e => exact hnone spec (List.mem_cons_self _ _)
      | ok sel =>
        cases sel with
        | none => exact hnone spec (List.mem_cons_self _ _)
        | some v =>
          dsimp only
          rw [alookup_ainsert, if_pos rfl]
    · refine ih (batchStep reg mv py m s) ?_ hnd1 spec hspec
      intro s' hs'
      have hne : s.name ≠ s'.name := by
        intro he
        exact hs_not (List.mem_map.mpr ⟨s', hs', he.symm⟩)
      rw [batchStep_other hne]
      exact hnone s' (List.mem_cons_of_mem _ hs')

/-- Closed form of the parallel per-spec loop on a dependency-free registry
whose batch map agrees with the per-package optimal choice. -/
theorem parLoop_depfree {reg : Registry} {py : Chars} (hdf : DepFree reg)
    (m : List (Chars × Chars)) :
    ∀ (specs : List PackageSpec) (st : RState),
      (∀ s ∈ specs, alookup m s.name = optV reg 30 py s) →
      parLoop reg py m specs st = .ok (specs.foldl (parStep reg py) st) := by
  intro specs
  induction specs with
  | nil => intro st _; simp [parLoop]
  | cons s rest ih =>
    intro st hm
    simp only [parLoop]
    rw [hm s (List.mem_cons_self _ _)]
    cases ho : optV reg 30 py s with
    | none =>
      dsimp only
      simp only [List.foldl_cons]
      have hp : parStep reg py st s = st := by simp [parStep, ho]
      rw [hp]
      exact ih st (fun r hr => hm r (List.mem_cons_of_mem _ hr))
    | some v =>
      dsimp only
      rw [getDependencies_nil hdf s.name v]
      simp only [List.take_nil, stepDeps]
      simp only [List.foldl_cons]
      have hp : parStep reg py st s = ainsert st s.name ⟨s.name, v, [], [], true⟩ := by
        simp [parStep, ho]
      rw [hp]
      exact ih _ (fun r hr => hm r (List.mem_cons_of_mem _ hr))

/-- With distinct names and no prior entries, the memoizing sequential fold
and the overwriting parallel fold agree. -/
theorem fold_eq (reg : Registry) (py : Chars) :
    ∀ (specs : List PackageSpec) (st : RState),
      (∀ s ∈ specs, alookup st s.name = none) →
      (specs.map (fun s => s.name)).Nodup →
      specs.foldl (seqStep reg py) st = specs.foldl (parStep reg py) st := by
  intro specs
  induction specs with
  | nil => intro st _ _; rfl
  | cons s rest ih =>
    intro st hnone hnd
    simp only [List.map_cons, List.nodup_cons] at hnd
    obtain ⟨hs_not, hnd1⟩ := hnd
    simp only [List.foldl_cons]
    have h1 : seqStep reg py st s = parStep reg py st s := by
      simp [seqStep, parStep, hnone s (List.mem_cons_self _ _)]
    rw [h1]
    refine ih (parStep reg py st s) ?_ hnd1
    intro s' hs'
    have hne : s.name ≠ s'.name := by
      intro he
      exact hs_not (List.mem_map.mpr ⟨s', hs', he.symm⟩)
    simp only [parStep]
    cases optV reg 30 py s with
    | none => exact hnone s' (List.mem_cons_of_mem _ hs')
    | some v =>
      dsimp only
      rw [alookup_ainsert, if_neg hne]
      exact hnone s' (List.mem_cons_of_mem _ hs')

/-- C10 (amended): the sequential and the parallel strategy coincide when
the registry declares no dependencies (and its version keys are
well-formed) and the direct specifications have pairwise-distinct names; in
general they differ, because the parallel path re-creates every direct
package from the batch-resolved version, overwriting dependency-constrained
choices (see the counterexample). -/
theorem C10_equiv_no_deps (reg : Registry) (py : Chars) (specs : List PackageSpec)
    (hdf : DepFree reg) (hwf : WFVersions reg)
    (hnd : (specs.map (fun s => s.name)).Nodup) :
    resolveSeqAll reg py specs [] = resolveParAll reg 30 py specs := by
  have hbatch : ∀ s ∈ specs,
      alookup (resolveParallelBatch reg 30 py specs) s.name = optV reg 30 py s := by
    intro s hs
    unfold resolveParallelBatch
    exact batch_lookup specs [] (fun s1 _ => rfl) hnd s hs
  rw [resolveSeqAll_depfree hdf hwf specs []]
  unfold resolveParAll
  rw [parLoop_depfree hdf (resolveParallelBatch reg 30 py specs) specs [] hbatch]
  congr 1
  exact fold_eq reg py specs [] (fun s _ => rfl) hnd

/-- Witness for C10's amended statement on a dependency-free registry. -/
theorem C10_equiv_witness :
    resolveSeqAll regDF (strL "3.9") [specDF] [] =
      resolveParAll regDF 30 (strL "3.9") [specDF] :=
  C10_equiv_no_deps regDF (strL "3.9") [specDF] (by unfold DepFree; decide)
    (by unfold WFVersions; decide) (by decide)

end PkgMgr
